import Mathlib

/-!
Shallow embedding of the account module of `extrema_mcp_trading_agent`
(`src/rust_mcp_server/src/arch/account_module/{acc_base.rs, acc_utils.rs}`).

Rust `f64` values are modelled as rationals (`ℚ`): every constant the code
compares against (`0.01`, `6.0`, `f64::EPSILON = 2^-52`) is carried over as
the exact rational it denotes, and float arithmetic is modelled as exact
rational arithmetic.  Rust `HashMap`/`DashMap` values are modelled as
association lists with insert-replace semantics; iteration order of a map
is modelled by the list order.
-/

namespace Extrema

/-! ## Association-list model of HashMap / DashMap -/

abbrev AList (κ α : Type) := List (κ × α)

def alistLookup {κ α : Type} [DecidableEq κ] : AList κ α → κ → Option α
  | [], _ => none
  | (k', v) :: rest, k => if k' = k then some v else alistLookup rest k

/-- `HashMap::insert` — replaces the binding if the key is present,
appends it otherwise. -/
def alistInsert {κ α : Type} [DecidableEq κ] : AList κ α → κ → α → AList κ α
  | [], k, v => [(k, v)]
  | (k', v') :: rest, k, v =>
      if k' = k then (k, v) :: rest else (k', v') :: alistInsert rest k v

/-- `HashMap::remove`. -/
def alistRemove {κ α : Type} [DecidableEq κ] : AList κ α → κ → AList κ α
  | [], _ => []
  | (k', v') :: rest, k =>
      if k' = k then rest else (k', v') :: alistRemove rest k

def alistKeys {κ α : Type} (m : AList κ α) : List κ := m.map Prod.fst

/-- `*map.entry(k).or_insert(0.0) += v` (and the identically-shaped
`entry(k).and_modify(|w| *w += v).or_insert(v)`). -/
def alistAddEntry {κ : Type} [DecidableEq κ] (m : AList κ ℚ) (k : κ) (v : ℚ) :
    AList κ ℚ :=
  match alistLookup m k with
  | some old => alistInsert m k (old + v)
  | none => alistInsert m k v

theorem alistLookup_insert_self {κ α : Type} [DecidableEq κ]
    (m : AList κ α) (k : κ) (v : α) :
    alistLookup (alistInsert m k v) k = some v := by
  induction m with
  | nil => simp [alistInsert, alistLookup]
  | cons hd tl ih =>
      by_cases h : hd.1 = k
      · simp [alistInsert, alistLookup, h]
      · simp [alistInsert, alistLookup, h, ih]

theorem alistLookup_insert_ne {κ α : Type} [DecidableEq κ]
    (m : AList κ α) (k k' : κ) (v : α) (hne : k ≠ k') :
    alistLookup (alistInsert m k v) k' = alistLookup m k' := by
  induction m with
  | nil => simp [alistInsert, alistLookup, hne]
  | cons hd tl ih =>
      by_cases h : hd.1 = k
      · simp [alistInsert, alistLookup, h, hne]
      · simp [alistInsert, alistLookup, h, ih]

theorem alistLookup_eq_none_of_not_mem_keys {κ α : Type} [DecidableEq κ]
    (m : AList κ α) (k : κ) (h : k ∉ alistKeys m) :
    alistLookup m k = none := by
  induction m with
  | nil => rfl
  | cons hd tl ih =>
      simp [alistKeys] at h
      simp [alistLookup, h.1, ih (by simp [alistKeys, h.2])]
      intro he
      exact h.1 he.symm

theorem mem_keys_insert {κ α : Type} [DecidableEq κ]
    (m : AList κ α) (k k' : κ) (v : α) :
    k' ∈ alistKeys (alistInsert m k v) ↔ k' = k ∨ k' ∈ alistKeys m := by
  induction m with
  | nil => simp [alistInsert, alistKeys, eq_comm]
  | cons hd tl ih =>
      by_cases h : hd.1 = k
      · subst h
        simp [alistInsert, alistKeys, eq_comm]
      · simp [alistInsert, alistKeys, h] at *
        constructor
        · rintro (h1 | h2)
          · exact Or.inr (Or.inl h1)
          · rcases ih.mp h2 with h3 | h3
            · exact Or.inl h3
            · exact Or.inr (Or.inr h3)
        · rintro (h1 | h2 | h3)
          · exact Or.inr (ih.mpr (Or.inl h1))
          · exact Or.inl h2
          · exact Or.inr (ih.mpr (Or.inr h3))

theorem nodup_keys_insert {κ α : Type} [DecidableEq κ]
    (m : AList κ α) (k : κ) (v : α) (h : (alistKeys m).Nodup) :
    (alistKeys (alistInsert m k v)).Nodup := by
  induction m with
  | nil => simp [alistInsert, alistKeys]
  | cons hd tl ih =>
      by_cases hk : hd.1 = k
      · subst hk
        simpa [alistInsert, alistKeys] using h
      · rw [show alistInsert (hd :: tl) k v = hd :: alistInsert tl k v from by
          simp [alistInsert, hk]]
        rw [show alistKeys (hd :: alistInsert tl k v)
              = hd.1 :: alistKeys (alistInsert tl k v) from rfl]
        rw [show alistKeys (hd :: tl) = hd.1 :: alistKeys tl from rfl] at h
        rw [List.nodup_cons] at h ⊢
        refine ⟨?_, ih h.2⟩
        intro hmem
        rcases (mem_keys_insert tl k hd.1 v).mp hmem with h1 | h1
        · exact hk h1
        · exact h.1 h1

theorem alistLookup_isSome_iff_mem_keys {κ α : Type} [DecidableEq κ]
    (m : AList κ α) (k : κ) :
    (alistLookup m k).isSome ↔ k ∈ alistKeys m := by
  induction m with
  | nil => simp [alistLookup, alistKeys]
  | cons hd tl ih =>
      by_cases h : hd.1 = k
      · simp [alistLookup, alistKeys, h]
      · simp [alistLookup, alistKeys, h, ih]
        intro he
        exact absurd he.symm h

/-! ## Markets, clients, instrument metadata -/

inductive Market where
  | Okx
  | BinanceUmFutures
  | BinanceCmFutures
  deriving DecidableEq, Repr

/-- The venue-client variants the account module dispatches on
(`CexClients::BinanceUm`, `CexClients::Okx`, and the catch-all arms). -/
inductive CexClients where
  | BinanceUm
  | Okx
  | BinanceCm
  deriving DecidableEq, Repr

abbrev InstKey := String × Market

/-- The fields of `InstrumentInfo` read by this module. -/
structure InstrumentInfo where
  inst : String
  lot_size : ℚ
  min_lmt_size : ℚ
  max_lmt_size : ℚ
  min_mkt_size : ℚ
  max_mkt_size : ℚ
  contract_value : Option ℚ
  deriving DecidableEq, Repr

/-! ## Order sizing (`acc_utils.rs`) -/

/-- Rust `f64::clamp(min, max)` on the rational model
(the caller guarantees `lo ≤ hi`; below `lo` goes to `lo`, above `hi`
goes to `hi`, otherwise unchanged). -/
def rustClamp (x lo hi : ℚ) : ℚ :=
  if x < lo then lo else if x > hi then hi else x

/-- Modelled from the spec: `normalize_to_string` lives in the external
`extrema_infra` crate (`api_general::normalize_to_string`), whose body is
not part of this repository.  Per the spec it rounds the quantity down to
the nearest multiple of `lot_size` and renders it as the venue's textual
decimal representation; we model the numeric value denoted by that
rendered string.  It returns a plain `String` in the source (the call
sites wrap it in `Ok`), so it is total and never produces an error. -/
def normalize_to_string (size lot_size : ℚ) : ℚ :=
  ⌊size / lot_size⌋ * lot_size

/-- `calc_okx_order_size` (`acc_utils.rs:67-82`). -/
def calc_okx_order_size (price notional : ℚ) (info : InstrumentInfo) :
    Except String ℚ :=
  match info.contract_value with
  | none => Except.error "okx contract_value missing"
  | some ct_val =>
      let size := notional / (price * ct_val)
      let min_sz := max info.min_lmt_size info.min_mkt_size
      let max_sz := min info.max_lmt_size info.max_mkt_size
      Except.ok (normalize_to_string (rustClamp size min_sz max_sz) info.lot_size)

/-- `calc_binance_order_size` (`acc_utils.rs:84-100`). -/
def calc_binance_order_size (price notional : ℚ) (info : InstrumentInfo) :
    Except String ℚ :=
  let size := notional / price
  let min_sz := max info.min_lmt_size info.min_mkt_size
  let max_sz := min info.max_lmt_size info.max_mkt_size
  Except.ok (normalize_to_string (rustClamp size min_sz max_sz) info.lot_size)

theorem rustClamp_mem_Icc (x lo hi : ℚ) (h : lo ≤ hi) :
    rustClamp x lo hi ∈ Set.Icc lo hi := by
  unfold rustClamp
  by_cases h1 : x < lo
  · simp [h1, h]
  · by_cases h2 : x > hi
    · simp [h1, h2, h]
    · simp [h1, h2]
      exact ⟨le_of_not_lt h1, le_of_not_lt h2⟩

/-- Rounding down to the nearest multiple of a positive `lot_size`:
the result is a multiple, is at most the input, and is within `lot_size`
of it. -/
theorem normalize_to_string_spec (x lot : ℚ) (hlot : 0 < lot) :
    (∃ k : ℤ, normalize_to_string x lot = k * lot) ∧
      normalize_to_string x lot ≤ x ∧ x < normalize_to_string x lot + lot := by
  refine ⟨⟨⌊x / lot⌋, rfl⟩, ?_, ?_⟩
  · unfold normalize_to_string
    rw [show (⌊x / lot⌋ : ℚ) * lot ≤ x ↔ (⌊x / lot⌋ : ℚ) ≤ x / lot from
      by rw [le_div_iff₀ hlot]]
    exact Int.floor_le _
  · unfold normalize_to_string
    have h1 : x / lot < ⌊x / lot⌋ + 1 := Int.lt_floor_add_one _
    calc x = x / lot * lot := by field_simp
    _ < ((⌊x / lot⌋ : ℚ) + 1) * lot := by
        exact mul_lt_mul_of_pos_right h1 hlot
    _ = (⌊x / lot⌋ : ℚ) * lot + lot := by ring

/-! ## AccountInfo and weight comparison (`acc_base.rs`) -/

/-- The fields of `AccountInfo` (`acc_base.rs:493-502`); the venue client
handle is modelled by its variant tag. -/
structure AccountInfo where
  account_id : String
  client : CexClients
  acc_weights : AList String ℚ
  inst_mark_price : AList String ℚ
  total_equity : ℚ
  account_orders_task_id : ℕ
  account_bal_pos_task_id : ℕ
  deriving DecidableEq, Repr

/-- One target-weight entry: instrument ↦ (mark price, raw weight).
The `DashMap` iteration in `compare_weights` is modelled by the list
order; key uniqueness of the map corresponds to `Nodup` of the keys. -/
abbrev TargetWeightTable := List (String × ℚ × ℚ)

/-- The `for r in target_weights.iter()` loop of
`AccountInfo::compare_weights` (`acc_base.rs:755-770`), one recursive step
per entry, threading the account and the two result maps. -/
def compare_weights_go (a : AccountInfo) (inst_count : ℚ) :
    TargetWeightTable → AList String ℚ → AList String ℚ →
    AccountInfo × AList String ℚ × AList String ℚ
  | [], diffs, computed => (a, diffs, computed)
  | (inst, price, raw_weight) :: rest, diffs, computed =>
      let a' := { a with inst_mark_price := alistInsert a.inst_mark_price inst price }
      let target_w := raw_weight / inst_count
      let computed' := alistInsert computed inst target_w
      let current_w := (alistLookup a'.acc_weights inst).getD 0
      let diff := target_w - current_w
      let diffs' := if |diff| > 1/100 then alistInsert diffs inst diff else diffs
      compare_weights_go a' inst_count rest diffs' computed'

/-- `AccountInfo::compare_weights` (`acc_base.rs:746-773`): returns the
mutated account together with `(diffs, computed_target_weights)`.
`inst_count = target_weights.len().max(1) as f64`. -/
def compare_weights (a : AccountInfo) (target_weights : TargetWeightTable) :
    AccountInfo × AList String ℚ × AList String ℚ :=
  let inst_count : ℚ := ((target_weights.length.max 1 : ℕ) : ℚ)
  compare_weights_go a inst_count target_weights [] []

theorem compare_weights_go_acc_weights (a : AccountInfo) (n : ℚ)
    (targets : TargetWeightTable) (diffs computed : AList String ℚ) :
    (compare_weights_go a n targets diffs computed).1.acc_weights = a.acc_weights := by
  induction targets generalizing a diffs computed with
  | nil => rfl
  | cons hd tl ih =>
      obtain ⟨inst, price, raw⟩ := hd
      simp only [compare_weights_go]
      rw [ih]

theorem compare_weights_go_lookup_of_not_mem (a : AccountInfo) (n : ℚ)
    (targets : TargetWeightTable) (diffs computed : AList String ℚ)
    (inst : String) (h : inst ∉ targets.map (·.1)) :
    alistLookup (compare_weights_go a n targets diffs computed).2.1 inst
      = alistLookup diffs inst ∧
    alistLookup (compare_weights_go a n targets diffs computed).2.2 inst
      = alistLookup computed inst := by
  induction targets generalizing a diffs computed with
  | nil => exact ⟨rfl, rfl⟩
  | cons hd tl ih =>
      obtain ⟨j, price, raw⟩ := hd
      simp only [List.map_cons, List.mem_cons] at h
      push_neg at h
      obtain ⟨hj, htl⟩ := h
      rw [show compare_weights_go a n ((j, price, raw) :: tl) diffs computed
            = compare_weights_go
                { a with inst_mark_price := alistInsert a.inst_mark_price j price } n tl
                (if |raw / n - (alistLookup a.acc_weights j).getD 0| > 1/100 then
                  alistInsert diffs j (raw / n - (alistLookup a.acc_weights j).getD 0)
                else diffs)
                (alistInsert computed j (raw / n)) from rfl]
      have hstep := ih { a with inst_mark_price := alistInsert a.inst_mark_price j price }
        (if |raw / n - (alistLookup a.acc_weights j).getD 0| > 1/100 then
          alistInsert diffs j (raw / n - (alistLookup a.acc_weights j).getD 0)
        else diffs)
        (alistInsert computed j (raw / n)) htl
      constructor
      · rw [hstep.1]
        by_cases hth : |raw / n - (alistLookup a.acc_weights j).getD 0| > 1/100
        · rw [if_pos hth]
          exact alistLookup_insert_ne _ _ _ _ (fun he => hj he.symm)
        · rw [if_neg hth]
      · rw [hstep.2]
        exact alistLookup_insert_ne _ _ _ _ (fun he => hj he.symm)

theorem compare_weights_go_lookup_of_mem (a : AccountInfo) (n : ℚ)
    (targets : TargetWeightTable) (diffs computed : AList String ℚ)
    (hnd : (targets.map (·.1)).Nodup)
    (inst : String) (price raw : ℚ) (hmem : (inst, price, raw) ∈ targets) :
    alistLookup (compare_weights_go a n targets diffs computed).2.2 inst
      = some (raw / n) ∧
    alistLookup (compare_weights_go a n targets diffs computed).2.1 inst
      = (if 1/100 < |raw / n - (alistLookup a.acc_weights inst).getD 0| then
          some (raw / n - (alistLookup a.acc_weights inst).getD 0)
        else alistLookup diffs inst) := by
  induction targets generalizing a diffs computed with
  | nil => exact absurd hmem (List.not_mem_nil _)
  | cons hd tl ih =>
      obtain ⟨j, p', r'⟩ := hd
      simp only [List.map_cons, List.nodup_cons] at hnd
      rcases List.mem_cons.mp hmem with heq | htl
      · injection heq with ha hb
        injection hb with hb hc
        subst ha; subst hb; subst hc
        rw [show compare_weights_go a n ((inst, price, raw) :: tl) diffs computed
              = compare_weights_go
                  { a with inst_mark_price := alistInsert a.inst_mark_price inst price } n tl
                  (if |raw / n - (alistLookup a.acc_weights inst).getD 0| > 1/100 then
                    alistInsert diffs inst (raw / n - (alistLookup a.acc_weights inst).getD 0)
                  else diffs)
                  (alistInsert computed inst (raw / n)) from rfl]
        have hfr := compare_weights_go_lookup_of_not_mem
          { a with inst_mark_price := alistInsert a.inst_mark_price inst price } n
          tl
          (if |raw / n - (alistLookup a.acc_weights inst).getD 0| > 1/100 then
            alistInsert diffs inst (raw / n - (alistLookup a.acc_weights inst).getD 0)
          else diffs)
          (alistInsert computed inst (raw / n)) inst hnd.1
        refine ⟨?_, ?_⟩
        · rw [hfr.2, alistLookup_insert_self]
        · rw [hfr.1]
          by_cases hth : 1/100 < |raw / n - (alistLookup a.acc_weights inst).getD 0|
          · rw [if_pos hth, if_pos (show |raw / n - (alistLookup a.acc_weights inst).getD 0|
              > 1/100 from hth), alistLookup_insert_self]
          · rw [if_neg hth, if_neg (show ¬ (|raw / n - (alistLookup a.acc_weights inst).getD 0|
              > 1/100) from hth)]
      · have hj : j ≠ inst := by
          intro he
          subst he
          exact hnd.1 (List.mem_map.mpr ⟨(j, price, raw), htl, rfl⟩)
        rw [show compare_weights_go a n ((j, p', r') :: tl) diffs computed
              = compare_weights_go
                  { a with inst_mark_price := alistInsert a.inst_mark_price j p' } n tl
                  (if |r' / n - (alistLookup a.acc_weights j).getD 0| > 1/100 then
                    alistInsert diffs j (r' / n - (alistLookup a.acc_weights j).getD 0)
                  else diffs)
                  (alistInsert computed j (r' / n)) from rfl]
        have hstep := ih { a with inst_mark_price := alistInsert a.inst_mark_price j p' }
          (if |r' / n - (alistLookup a.acc_weights j).getD 0| > 1/100 then
            alistInsert diffs j (r' / n - (alistLookup a.acc_weights j).getD 0)
          else diffs)
          (alistInsert computed j (r' / n)) hnd.2 htl
        refine ⟨hstep.1, ?_⟩
        rw [hstep.2]
        by_cases hth : 1/100 < |raw / n - (alistLookup a.acc_weights inst).getD 0|
        · rw [if_pos hth, if_pos hth]
        · rw [if_neg hth, if_neg hth]
          by_cases hth' : |r' / n - (alistLookup a.acc_weights j).getD 0| > 1/100
          · rw [if_pos hth']
            exact alistLookup_insert_ne _ _ _ _ hj
          · rw [if_neg hth']

/-- Entries with the same key in a nodup-keyed association list coincide. -/
theorem value_unique_of_nodup_keys {κ α : Type} [DecidableEq κ]
    (l : List (κ × α)) (h : (l.map (·.1)).Nodup) (k : κ) (a b : α)
    (ha : (k, a) ∈ l) (hb : (k, b) ∈ l) : a = b := by
  induction l with
  | nil => exact absurd ha (List.not_mem_nil _)
  | cons hd tl ih =>
      simp only [List.map_cons, List.nodup_cons] at h
      rcases List.mem_cons.mp ha with ha1 | ha1 <;>
        rcases List.mem_cons.mp hb with hb1 | hb1
      · rw [← ha1] at hb1
        injection hb1 with _ h2
        exact h2.symm
      · exfalso
        apply h.1
        rw [← ha1]
        exact List.mem_map.mpr ⟨(k, b), hb1, rfl⟩
      · exfalso
        apply h.1
        rw [← hb1]
        exact List.mem_map.mpr ⟨(k, a), ha1, rfl⟩
      · exact ih h.2 ha1 hb1

/-! ## Concrete fixtures used by witnesses and counterexamples -/

def acct0 : AccountInfo :=
  { account_id := "acct-1"
    client := CexClients.BinanceUm
    acc_weights := []
    inst_mark_price := []
    total_equity := 1000
    account_orders_task_id := 1
    account_bal_pos_task_id := 2 }

def tws2 : TargetWeightTable := [("A", 100, 1), ("B", 200, 1)]

def infoZeroLot : InstrumentInfo :=
  { inst := "BTC-USDT"
    lot_size := 0
    min_lmt_size := 0
    max_lmt_size := 1000000
    min_mkt_size := 0
    max_mkt_size := 1000000
    contract_value := some 1 }

def info1 : InstrumentInfo :=
  { inst := "BTC-USDT"
    lot_size := 1/10
    min_lmt_size := 0
    max_lmt_size := 50
    min_mkt_size := 0
    max_mkt_size := 1000
    contract_value := some 1 }

/-! ## Claim C1 -/

/-- C1: with `n` target entries, the effective target weight of each
instrument is `raw_weight / max(1, n)` (recorded in
`computed_target_weights`), and its diff is the effective target minus the
account's current weight, defaulting to `0` when the instrument is absent
from `acc_weights` (the diff being recorded in `diffs` exactly when it
passes the actionability threshold). -/
theorem C1_effective_target_and_diff (a : AccountInfo) (targets : TargetWeightTable)
    (hnd : (targets.map (·.1)).Nodup)
    (inst : String) (price raw : ℚ) (hmem : (inst, price, raw) ∈ targets) :
    alistLookup (compare_weights a targets).2.2 inst
      = some (raw / ((targets.length.max 1 : ℕ) : ℚ)) ∧
    alistLookup (compare_weights a targets).2.1 inst
      = (if 1/100 < |raw / ((targets.length.max 1 : ℕ) : ℚ)
            - (alistLookup a.acc_weights inst).getD 0| then
          some (raw / ((targets.length.max 1 : ℕ) : ℚ)
            - (alistLookup a.acc_weights inst).getD 0)
        else none) :=
  compare_weights_go_lookup_of_mem a ((targets.length.max 1 : ℕ) : ℚ)
    targets [] [] hnd inst price raw hmem

/-- C1 witness: two instruments with raw weight 1.0 each get effective
target 0.5, and with empty current weights the diff is 0.5. -/
theorem C1_effective_target_and_diff_witness :
    (tws2.map (·.1)).Nodup ∧ ("A", (100 : ℚ), (1 : ℚ)) ∈ tws2 ∧
    alistLookup (compare_weights acct0 tws2).2.2 "A" = some (1/2) ∧
    alistLookup (compare_weights acct0 tws2).2.1 "A" = some (1/2) := by
  have h := C1_effective_target_and_diff acct0 tws2 (by decide) "A" 100 1
    (by simp [tws2])
  refine ⟨by decide, by simp [tws2], ?_, ?_⟩
  · rw [h.1]
    norm_num [tws2]
  · rw [h.2]
    rw [show ((tws2.length.max 1 : ℕ) : ℚ) = 2 from by norm_num [tws2]]
    rw [show (alistLookup acct0.acc_weights "A").getD 0 = 0 from rfl]
    rw [if_pos (by rw [abs_of_nonneg (by norm_num)]; norm_num)]
    norm_num

/-! ## Claim C9 -/

/-- C9: the actionable set selected by a reconciliation pass is exactly
the set of instruments whose diff strictly exceeds `0.01` in absolute
value. -/
theorem C9_actionable_strict_threshold (a : AccountInfo) (targets : TargetWeightTable)
    (hnd : (targets.map (·.1)).Nodup) (inst : String) :
    (alistLookup (compare_weights a targets).2.1 inst).isSome ↔
      ∃ price raw, (inst, price, raw) ∈ targets ∧
        1/100 < |raw / ((targets.length.max 1 : ℕ) : ℚ)
          - (alistLookup a.acc_weights inst).getD 0| := by
  by_cases hk : inst ∈ targets.map (·.1)
  · obtain ⟨⟨i, price, raw⟩, hmem, hfst⟩ := List.mem_map.mp hk
    simp only at hfst
    subst hfst
    have h := compare_weights_go_lookup_of_mem a ((targets.length.max 1 : ℕ) : ℚ)
      targets [] [] hnd i price raw hmem
    rw [show compare_weights a targets
          = compare_weights_go a ((targets.length.max 1 : ℕ) : ℚ) targets [] [] from rfl]
    rw [h.2]
    constructor
    · intro hs
      by_cases hth : 1/100 < |raw / ((targets.length.max 1 : ℕ) : ℚ)
          - (alistLookup a.acc_weights i).getD 0|
      · exact ⟨price, raw, hmem, hth⟩
      · rw [if_neg hth] at hs
        exact absurd hs (by simp [alistLookup])
    · rintro ⟨p2, r2, hmem2, hth2⟩
      have : r2 = raw :=
        congrArg Prod.snd (value_unique_of_nodup_keys targets hnd i (p2, r2) (price, raw)
          hmem2 hmem)
      rw [this] at hth2
      rw [if_pos hth2]
      rfl
  · have hfr := compare_weights_go_lookup_of_not_mem a
      ((targets.length.max 1 : ℕ) : ℚ) targets [] [] inst hk
    rw [show compare_weights a targets
          = compare_weights_go a ((targets.length.max 1 : ℕ) : ℚ) targets [] [] from rfl]
    rw [hfr.1]
    simp only [alistLookup, Option.isSome_none, Bool.false_eq_true, false_iff]
    rintro ⟨price, raw, hmem, -⟩
    exact hk (List.mem_map.mpr ⟨(inst, price, raw), hmem, rfl⟩)

/-- C9 witness: a diff of exactly `0.01` is not actionable, while a diff
of `0.0101` is. -/
theorem C9_actionable_strict_threshold_witness :
    ((([("A", (100 : ℚ), (1/100 : ℚ))] : TargetWeightTable).map (·.1)).Nodup) ∧
    (alistLookup (compare_weights acct0 [("A", 100, 1/100)]).2.1 "A").isSome = false ∧
    (alistLookup (compare_weights acct0 [("A", 100, 101/10000)]).2.1 "A").isSome = true := by
  have h1 := C9_actionable_strict_threshold acct0 [("A", 100, 1/100)] (by simp) "A"
  have h2 := C9_actionable_strict_threshold acct0 [("A", 100, 101/10000)] (by simp) "A"
  refine ⟨by simp, ?_, ?_⟩
  · rw [Bool.eq_false_iff]
    intro hs
    rcases h1.mp hs with ⟨p, r, hm, hlt⟩
    simp only [List.mem_singleton, Prod.mk.injEq, true_and] at hm
    rw [hm.2] at hlt
    rw [show (([("A", (100 : ℚ), (1/100 : ℚ))] : TargetWeightTable).length.max 1 : ℕ)
        = 1 from rfl] at hlt
    rw [show (alistLookup acct0.acc_weights "A").getD 0 = 0 from rfl] at hlt
    rw [abs_of_nonneg (by norm_num)] at hlt
    norm_num at hlt
  · refine h2.mpr ⟨100, 101/10000, List.mem_singleton.mpr rfl, ?_⟩
    rw [show (([("A", (100 : ℚ), (101/10000 : ℚ))] : TargetWeightTable).length.max 1 : ℕ)
        = 1 from rfl]
    rw [show (alistLookup acct0.acc_weights "A").getD 0 = 0 from rfl]
    rw [abs_of_nonneg (by norm_num)]
    norm_num

/-! ## Claim C4 -/

/-- C4 counterexample: the claim says a zero `lot_size` is one of the
cases in which sizing returns an error; in the code both sizing functions
succeed on a zero `lot_size` (the rendered size degenerates to `0`),
because `normalize_to_string` is total. -/
theorem C4_counterexample :
    infoZeroLot.lot_size = 0 ∧
    calc_binance_order_size 10 1000 infoZeroLot = Except.ok 0 ∧
    calc_okx_order_size 10 1000 infoZeroLot = Except.ok 0 := by
  refine ⟨rfl, ?_, ?_⟩ <;>
    norm_num [calc_binance_order_size, calc_okx_order_size, infoZeroLot,
      rustClamp, normalize_to_string, min_def, max_def]

/-- C4 (amended): sizing returns an error exactly when the required OKX
contract multiplier is missing; the Binance variant never errors.  In
particular neither a non-finite price (no finiteness check exists in the
code) nor a zero `lot_size` produces an error. -/
theorem C4_sizing_error_cases (price notional : ℚ) (info : InstrumentInfo) :
    ((∃ e, calc_okx_order_size price notional info = Except.error e) ↔
      info.contract_value = none) ∧
    (∃ q, calc_binance_order_size price notional info = Except.ok q) := by
  constructor
  · cases hc : info.contract_value with
    | none =>
        simp only [calc_okx_order_size, hc]
        exact ⟨fun _ => trivial, fun _ => ⟨"okx contract_value missing", rfl⟩⟩
    | some ct =>
        simp only [calc_okx_order_size, hc]
        constructor
        · rintro ⟨e, he⟩
          exact Except.noConfusion he
        · intro h
          exact Option.noConfusion h
  · exact ⟨_, rfl⟩

/-! ## Claim C5 -/

/-- C5: every successful sizing call returns `notional/price` (Binance)
or `notional/(price·contract_value)` (OKX) clamped into
`[max(min_lmt,min_mkt), min(max_lmt,max_mkt)]` and then rounded down to
the nearest multiple of `lot_size` — i.e. the rendered size is a multiple
of `lot_size`, at most the clamped quantity, and within `lot_size` of it,
and the clamped quantity lies in the bounds interval. -/
theorem C5_sizing_clamp_and_round (price notional : ℚ) (info : InstrumentInfo)
    (hrange : max info.min_lmt_size info.min_mkt_size
      ≤ min info.max_lmt_size info.max_mkt_size)
    (hlot : 0 < info.lot_size) :
    (∃ qb : ℚ,
      calc_binance_order_size price notional info = Except.ok qb ∧
      (rustClamp (notional / price)
          (max info.min_lmt_size info.min_mkt_size)
          (min info.max_lmt_size info.max_mkt_size)
        ∈ Set.Icc (max info.min_lmt_size info.min_mkt_size)
            (min info.max_lmt_size info.max_mkt_size)) ∧
      (∃ k : ℤ, qb = k * info.lot_size) ∧
      qb ≤ rustClamp (notional / price)
        (max info.min_lmt_size info.min_mkt_size)
        (min info.max_lmt_size info.max_mkt_size) ∧
      rustClamp (notional / price)
        (max info.min_lmt_size info.min_mkt_size)
        (min info.max_lmt_size info.max_mkt_size) < qb + info.lot_size) ∧
    (∀ ct : ℚ, info.contract_value = some ct →
      ∃ qo : ℚ,
        calc_okx_order_size price notional info = Except.ok qo ∧
        (rustClamp (notional / (price * ct))
            (max info.min_lmt_size info.min_mkt_size)
            (min info.max_lmt_size info.max_mkt_size)
          ∈ Set.Icc (max info.min_lmt_size info.min_mkt_size)
              (min info.max_lmt_size info.max_mkt_size)) ∧
        (∃ k : ℤ, qo = k * info.lot_size) ∧
        qo ≤ rustClamp (notional / (price * ct))
          (max info.min_lmt_size info.min_mkt_size)
          (min info.max_lmt_size info.max_mkt_size) ∧
        rustClamp (notional / (price * ct))
          (max info.min_lmt_size info.min_mkt_size)
          (min info.max_lmt_size info.max_mkt_size) < qo + info.lot_size) := by
  constructor
  · refine ⟨normalize_to_string (rustClamp (notional / price)
        (max info.min_lmt_size info.min_mkt_size)
        (min info.max_lmt_size info.max_mkt_size)) info.lot_size,
      rfl, rustClamp_mem_Icc _ _ _ hrange, ?_⟩
    exact normalize_to_string_spec _ _ hlot
  · intro ct hct
    refine ⟨normalize_to_string (rustClamp (notional / (price * ct))
        (max info.min_lmt_size info.min_mkt_size)
        (min info.max_lmt_size info.max_mkt_size)) info.lot_size,
      ?_, rustClamp_mem_Icc _ _ _ hrange, ?_⟩
    · simp only [calc_okx_order_size, hct]
    · exact normalize_to_string_spec _ _ hlot

/-- A linear-venue instrument: no contract multiplier at all. -/
def infoNoCt : InstrumentInfo := { info1 with contract_value := none }

/-- C5 witness: price 10, notional 1000 → raw size 100, clamped to 50,
rounded to a multiple of 0.1; the Binance conclusion also holds for a
linear instrument with no contract multiplier. -/
theorem C5_sizing_clamp_and_round_witness :
    (max info1.min_lmt_size info1.min_mkt_size
      ≤ min info1.max_lmt_size info1.max_mkt_size) ∧
    (0 : ℚ) < info1.lot_size ∧
    info1.contract_value = some 1 ∧
    calc_binance_order_size 10 1000 info1 = Except.ok 50 ∧
    calc_okx_order_size 10 1000 info1 = Except.ok 50 ∧
    infoNoCt.contract_value = none ∧
    (∃ qb : ℚ, calc_binance_order_size 10 1000 infoNoCt = Except.ok qb ∧
      ∃ k : ℤ, qb = k * infoNoCt.lot_size) := by
  have h1 := C5_sizing_clamp_and_round 10 1000 info1 (by norm_num [info1])
    (by norm_num [info1])
  have h2 := C5_sizing_clamp_and_round 10 1000 infoNoCt
    (by norm_num [infoNoCt, info1]) (by norm_num [infoNoCt, info1])
  have hb50 : calc_binance_order_size 10 1000 info1 = Except.ok 50 := by
    norm_num [calc_binance_order_size, info1, rustClamp, normalize_to_string,
      min_def, max_def]
  have ho50 : calc_okx_order_size 10 1000 info1 = Except.ok 50 := by
    obtain ⟨qo, hok, -, -, -, -⟩ := h1.2 1 rfl
    have : calc_okx_order_size 10 1000 info1
        = Except.ok (normalize_to_string (rustClamp ((1000 : ℚ) / (10 * 1))
            (max info1.min_lmt_size info1.min_mkt_size)
            (min info1.max_lmt_size info1.max_mkt_size)) info1.lot_size) := by
      simp only [calc_okx_order_size]
      rfl
    rw [this]
    norm_num [info1, rustClamp, normalize_to_string, min_def, max_def]
  obtain ⟨qb, hqb, -, hmul, -⟩ := h2.1
  exact ⟨by norm_num [info1], by norm_num [info1], rfl, hb50, ho50, rfl,
    ⟨qb, hqb, hmul⟩⟩

/-! ## REST position refresh (`rest_update_acc_pos_weight`, `acc_base.rs:547-589`) -/

/-- The fields of a REST `Position` read by the refresh. -/
structure RestPosition where
  inst : String
  size : ℚ
  mark_price : ℚ
  deriving DecidableEq, Repr

/-- `f64::EPSILON = 2^-52`, the threshold guarding the weight division. -/
def epsF64 : ℚ := 1 / 2 ^ 52

abbrev InstInfoMap := AList InstKey InstrumentInfo

/-- Per-position notional of the REST refresh (`acc_base.rs:555-567`):
Binance uses `size * mark_price`; OKX additionally multiplies by the
catalogued `contract_value` (default `1.0`), contributing `0.0` when the
instrument is not catalogued; other venues contribute `0.0`. -/
def rest_pos_notional (client : CexClients) (inst_infos : InstInfoMap)
    (pos : RestPosition) : ℚ :=
  match client with
  | CexClients.BinanceUm => pos.size * pos.mark_price
  | CexClients.Okx =>
      match alistLookup inst_infos (pos.inst, Market.Okx) with
      | some info => pos.size * pos.mark_price * info.contract_value.getD 1
      | none => 0
  | _ => 0

/-- The `for pos in positions` loop (`acc_base.rs:554-573`): records each
position's mark price and accumulates notionals per instrument. -/
def rest_build_notional (client : CexClients) (inst_infos : InstInfoMap) :
    List RestPosition → AList String ℚ → AList String ℚ →
    AList String ℚ × AList String ℚ
  | [], notional_map, mark_prices => (notional_map, mark_prices)
  | pos :: rest, notional_map, mark_prices =>
      let pn := rest_pos_notional client inst_infos pos
      let mark_prices' := alistInsert mark_prices pos.inst pos.mark_price
      let notional_map' := alistAddEntry notional_map pos.inst pn
      rest_build_notional client inst_infos rest notional_map' mark_prices'

/-- The `notional_map.iter().for_each(...)` loop (`acc_base.rs:575-583`):
writes `notional / total_equity` (or `0` when the equity is at most
`f64::EPSILON`) into the weight map for every entry of the notional map. -/
def rest_assign_weights (total_equity : ℚ) :
    AList String ℚ → AList String ℚ → AList String ℚ
  | [], weights => weights
  | (inst, notional) :: rest, weights =>
      let weight := if total_equity > epsF64 then notional / total_equity else 0
      rest_assign_weights total_equity rest (alistInsert weights inst weight)

/-- `AccountInfo::rest_update_acc_pos_weight` (`acc_base.rs:547-589`),
with the freshly fetched `positions` passed in for the external REST call:
builds the notional map, recomputes weights, and retains only instruments
present in the notional map. -/
def rest_update_acc_pos_weight (a : AccountInfo) (inst_infos : InstInfoMap)
    (positions : List RestPosition) : AccountInfo :=
  let built := rest_build_notional a.client inst_infos positions [] a.inst_mark_price
  let notional_map := built.1
  let weights := rest_assign_weights a.total_equity notional_map a.acc_weights
  { a with
      inst_mark_price := built.2
      acc_weights := weights.filter (fun e => decide (e.1 ∈ alistKeys notional_map)) }

theorem alistLookup_filter {κ α : Type} [DecidableEq κ]
    (m : AList κ α) (p : κ → Bool) (k : κ) :
    alistLookup (m.filter (fun e => p e.1)) k
      = if p k then alistLookup m k else none := by
  induction m with
  | nil => simp [alistLookup]
  | cons hd tl ih =>
      by_cases hp : p hd.1
      · by_cases hk : hd.1 = k
        · subst hk
          rw [show List.filter (fun e => p e.1) (hd :: tl)
                = hd :: List.filter (fun e => p e.1) tl from by
              simp [List.filter, hp]]
          simp [alistLookup, hp]
        · rw [show List.filter (fun e => p e.1) (hd :: tl)
                = hd :: List.filter (fun e => p e.1) tl from by
              simp [List.filter, hp]]
          simp only [alistLookup, hk, if_false]
          exact ih
      · rw [show List.filter (fun e => p e.1) (hd :: tl)
              = List.filter (fun e => p e.1) tl from by
            simp [List.filter, hp]]
        by_cases hk : hd.1 = k
        · subst hk
          simp only [alistLookup, if_pos rfl]
          rw [ih]
          simp [hp]
        · simp only [alistLookup, hk, if_false]
          exact ih

theorem rest_assign_weights_lookup_not_mem (eq0 : ℚ) (nm w : AList String ℚ)
    (inst : String) (h : inst ∉ alistKeys nm) :
    alistLookup (rest_assign_weights eq0 nm w) inst = alistLookup w inst := by
  induction nm generalizing w with
  | nil => rfl
  | cons hd tl ih =>
      obtain ⟨j, v⟩ := hd
      simp only [alistKeys, List.map_cons, List.mem_cons] at h
      push_neg at h
      rw [show rest_assign_weights eq0 ((j, v) :: tl) w
            = rest_assign_weights eq0 tl
                (alistInsert w j (if eq0 > epsF64 then v / eq0 else 0)) from rfl]
      rw [ih _ (by simpa [alistKeys] using h.2)]
      exact alistLookup_insert_ne _ _ _ _ (fun he => h.1 he.symm)

theorem rest_assign_weights_lookup_mem (eq0 : ℚ) (nm w : AList String ℚ)
    (hnd : (alistKeys nm).Nodup)
    (inst : String) (v : ℚ) (hmem : (inst, v) ∈ nm) :
    alistLookup (rest_assign_weights eq0 nm w) inst
      = some (if eq0 > epsF64 then v / eq0 else 0) := by
  induction nm generalizing w with
  | nil => exact absurd hmem (List.not_mem_nil _)
  | cons hd tl ih =>
      obtain ⟨j, v'⟩ := hd
      simp only [alistKeys, List.map_cons, List.nodup_cons] at hnd
      rcases List.mem_cons.mp hmem with heq | htl
      · injection heq with h1 h2
        subst h1; subst h2
        rw [show rest_assign_weights eq0 ((inst, v) :: tl) w
              = rest_assign_weights eq0 tl
                  (alistInsert w inst (if eq0 > epsF64 then v / eq0 else 0)) from rfl]
        rw [rest_assign_weights_lookup_not_mem eq0 tl
          (alistInsert w inst (if eq0 > epsF64 then v / eq0 else 0)) inst hnd.1]
        exact alistLookup_insert_self _ _ _
      · have hj : j ≠ inst := fun he => hnd.1 (by
          rw [he]
          exact List.mem_map.mpr ⟨(inst, v), htl, rfl⟩)
        rw [show rest_assign_weights eq0 ((j, v') :: tl) w
              = rest_assign_weights eq0 tl
                  (alistInsert w j (if eq0 > epsF64 then v' / eq0 else 0)) from rfl]
        exact ih (alistInsert w j (if eq0 > epsF64 then v' / eq0 else 0)) hnd.2 htl

theorem alistLookup_eq_of_mem_of_nodup {κ α : Type} [DecidableEq κ]
    (m : AList κ α) (hnd : (alistKeys m).Nodup) (k : κ) (v : α)
    (hmem : (k, v) ∈ m) : alistLookup m k = some v := by
  induction m with
  | nil => exact absurd hmem (List.not_mem_nil _)
  | cons hd tl ih =>
      simp only [alistKeys, List.map_cons, List.nodup_cons] at hnd
      rcases List.mem_cons.mp hmem with heq | htl
      · rw [← heq]
        simp [alistLookup]
      · have hne : hd.1 ≠ k := by
          intro he
          exact hnd.1 (he ▸ List.mem_map.mpr ⟨(k, v), htl, rfl⟩)
        simp only [alistLookup, hne, if_false]
        exact ih (by simpa [alistKeys] using hnd.2) htl

theorem rest_build_notional_nodup (client : CexClients) (inst_infos : InstInfoMap)
    (positions : List RestPosition) (nm mp : AList String ℚ)
    (hnd : (alistKeys nm).Nodup) :
    (alistKeys (rest_build_notional client inst_infos positions nm mp).1).Nodup := by
  induction positions generalizing nm mp with
  | nil => exact hnd
  | cons pos rest ih =>
      rw [show rest_build_notional client inst_infos (pos :: rest) nm mp
            = rest_build_notional client inst_infos rest
                (alistAddEntry nm pos.inst (rest_pos_notional client inst_infos pos))
                (alistInsert mp pos.inst pos.mark_price) from rfl]
      refine ih _ _ ?_
      unfold alistAddEntry
      cases alistLookup nm pos.inst <;> exact nodup_keys_insert _ _ _ hnd

/-- C7: after a REST position refresh the weight map is exactly the
freshly built notional map with each notional divided by the equity
(or zeroed when the equity does not exceed `f64::EPSILON`); instruments
absent from the fresh notional map are pruned. -/
theorem C7_rest_refresh_weights (a : AccountInfo) (inst_infos : InstInfoMap)
    (positions : List RestPosition) (inst : String) :
    alistLookup (rest_update_acc_pos_weight a inst_infos positions).acc_weights inst
      = (alistLookup
          (rest_build_notional a.client inst_infos positions [] a.inst_mark_price).1
          inst).map
          (fun notional =>
            if a.total_equity > epsF64 then notional / a.total_equity else 0) := by
  unfold rest_update_acc_pos_weight
  simp only
  rw [alistLookup_filter
    (rest_assign_weights a.total_equity
      (rest_build_notional a.client inst_infos positions [] a.inst_mark_price).1
      a.acc_weights)
    (fun k => decide (k ∈ alistKeys
      (rest_build_notional a.client inst_infos positions [] a.inst_mark_price).1))
    inst]
  have hnd : (alistKeys
      (rest_build_notional a.client inst_infos positions [] a.inst_mark_price).1).Nodup :=
    rest_build_notional_nodup a.client inst_infos positions [] a.inst_mark_price
      (by simp [alistKeys])
  by_cases hk : inst ∈ alistKeys
      (rest_build_notional a.client inst_infos positions [] a.inst_mark_price).1
  · rw [if_pos (by simpa using hk)]
    obtain ⟨⟨i, v⟩, hmem, hfst⟩ := List.mem_map.mp hk
    simp only at hfst
    subst hfst
    rw [rest_assign_weights_lookup_mem a.total_equity _ a.acc_weights hnd i v hmem]
    rw [alistLookup_eq_of_mem_of_nodup _ hnd i v hmem]
    rfl
  · rw [if_neg (by simpa using hk)]
    rw [alistLookup_eq_none_of_not_mem_keys _ _ hk]
    rfl

/-! ## WS balance/position folding (`process_bal_pos`, `ws_update_acc_position`) -/

/-- The fields of a `WsAccPosition` read by the folding. -/
structure WsAccPosition where
  inst : String
  size : ℚ
  avg_price : ℚ
  deriving DecidableEq, Repr

/-- One `WsAccBalPos` entry: the event's market plus its positions. -/
structure WsAccBalPos where
  market : Market
  positions : List WsAccPosition
  deriving DecidableEq, Repr

/-- `AccountInfo::ws_update_acc_position` (`acc_base.rs:509-530`): mark
price falls back to the event's average price, the notional is
venue-specific, and the resulting weight replaces the instrument's entry
in the weight map. -/
def ws_update_acc_position (a : AccountInfo) (pos : WsAccPosition)
    (inst_info : InstrumentInfo) : AccountInfo :=
  let mark_price := (alistLookup a.inst_mark_price pos.inst).getD pos.avg_price
  let pos_notional :=
    match a.client with
    | CexClients.BinanceUm => pos.size * mark_price
    | CexClients.Okx => pos.size * mark_price * inst_info.contract_value.getD 1
    | _ => 0
  let weight := if a.total_equity > epsF64 then pos_notional / a.total_equity else 0
  { a with acc_weights := alistInsert a.acc_weights pos.inst weight }

/-- The manager state relevant to event routing. -/
structure AccountManager where
  target_weights : TargetWeightTable
  task_index : AList ℕ String
  account_infos : AList String AccountInfo
  instrument_infos : InstInfoMap
  deriving DecidableEq, Repr

/-- The inner `for pos in bal_pos.positions` loop of
`AccountManager::process_bal_pos` (`acc_base.rs:174-179`): uncatalogued
`(inst, market)` keys are skipped. -/
def fold_ws_positions (inst_infos : InstInfoMap) (market : Market) :
    AccountInfo → List WsAccPosition → AccountInfo
  | a, [] => a
  | a, pos :: rest =>
      match alistLookup inst_infos (pos.inst, market) with
      | some info => fold_ws_positions inst_infos market (ws_update_acc_position a pos info) rest
      | none => fold_ws_positions inst_infos market a rest

/-- The outer `for bal_pos in msg.data` loop (`acc_base.rs:173-180`). -/
def fold_ws_bal_pos (inst_infos : InstInfoMap) :
    AccountInfo → List WsAccBalPos → AccountInfo
  | a, [] => a
  | a, bp :: rest =>
      fold_ws_bal_pos inst_infos (fold_ws_positions inst_infos bp.market a bp.positions) rest

/-- `AccountManager::process_bal_pos` (`acc_base.rs:157-181`): unknown
task ids or task ids mapped to a missing account are dropped. -/
def process_bal_pos (mgr : AccountManager) (task_id : ℕ) (data : List WsAccBalPos) :
    AccountManager :=
  match alistLookup mgr.task_index task_id with
  | none => mgr
  | some account_id =>
      match alistLookup mgr.account_infos account_id with
      | none => mgr
      | some account =>
          { mgr with
            account_infos :=
              alistInsert mgr.account_infos account_id
                (fold_ws_bal_pos mgr.instrument_infos account data) }

/-- A balance/position event entry with its uncatalogued positions
removed (the filtering that `process_bal_pos` performs implicitly by
skipping them). -/
def filter_catalogued (inst_infos : InstInfoMap) (bp : WsAccBalPos) : WsAccBalPos :=
  { bp with
    positions :=
      bp.positions.filter
        (fun pos => (alistLookup inst_infos (pos.inst, bp.market)).isSome) }

theorem fold_ws_positions_filter (inst_infos : InstInfoMap) (market : Market)
    (a : AccountInfo) (ps : List WsAccPosition) :
    fold_ws_positions inst_infos market a ps
      = fold_ws_positions inst_infos market a
          (ps.filter (fun pos => (alistLookup inst_infos (pos.inst, market)).isSome)) := by
  induction ps generalizing a with
  | nil => rfl
  | cons pos rest ih =>
      cases hl : alistLookup inst_infos (pos.inst, market) with
      | none =>
          rw [show fold_ws_positions inst_infos market a (pos :: rest)
                = fold_ws_positions inst_infos market a rest from by
              rw [fold_ws_positions.eq_def]
              simp [hl]]
          rw [show (pos :: rest).filter
                (fun p => (alistLookup inst_infos (p.inst, market)).isSome)
                = rest.filter (fun p => (alistLookup inst_infos (p.inst, market)).isSome)
              from by simp [List.filter, hl]]
          exact ih a
      | some info =>
          rw [show fold_ws_positions inst_infos market a (pos :: rest)
                = fold_ws_positions inst_infos market
                    (ws_update_acc_position a pos info) rest from by
              rw [fold_ws_positions.eq_def]
              simp [hl]]
          rw [show (pos :: rest).filter
                (fun p => (alistLookup inst_infos (p.inst, market)).isSome)
                = pos :: rest.filter
                    (fun p => (alistLookup inst_infos (p.inst, market)).isSome)
              from by simp [List.filter, hl]]
          rw [show fold_ws_positions inst_infos market a
                (pos :: rest.filter
                  (fun p => (alistLookup inst_infos (p.inst, market)).isSome))
                = fold_ws_positions inst_infos market
                    (ws_update_acc_position a pos info)
                    (rest.filter
                      (fun p => (alistLookup inst_infos (p.inst, market)).isSome)) from by
              rw [fold_ws_positions.eq_def]
              simp [hl]]
          exact ih (ws_update_acc_position a pos info)

theorem fold_ws_bal_pos_filter (inst_infos : InstInfoMap)
    (a : AccountInfo) (data : List WsAccBalPos) :
    fold_ws_bal_pos inst_infos a data
      = fold_ws_bal_pos inst_infos a (data.map (filter_catalogued inst_infos)) := by
  induction data generalizing a with
  | nil => rfl
  | cons bp rest ih =>
      rw [show fold_ws_bal_pos inst_infos a (bp :: rest)
            = fold_ws_bal_pos inst_infos
                (fold_ws_positions inst_infos bp.market a bp.positions) rest from rfl]
      rw [List.map_cons]
      rw [show fold_ws_bal_pos inst_infos a
            (filter_catalogued inst_infos bp :: rest.map (filter_catalogued inst_infos))
            = fold_ws_bal_pos inst_infos
                (fold_ws_positions inst_infos bp.market a
                  (bp.positions.filter
                    (fun pos => (alistLookup inst_infos (pos.inst, bp.market)).isSome)))
                (rest.map (filter_catalogued inst_infos)) from rfl]
      rw [← fold_ws_positions_filter]
      exact ih _

theorem fold_ws_positions_frame (inst_infos : InstInfoMap) (market : Market)
    (a : AccountInfo) (ps : List WsAccPosition) :
    (fold_ws_positions inst_infos market a ps).client = a.client ∧
    (fold_ws_positions inst_infos market a ps).inst_mark_price = a.inst_mark_price ∧
    (fold_ws_positions inst_infos market a ps).total_equity = a.total_equity ∧
    (fold_ws_positions inst_infos market a ps).account_id = a.account_id := by
  induction ps generalizing a with
  | nil => exact ⟨rfl, rfl, rfl, rfl⟩
  | cons pos rest ih =>
      cases hl : alistLookup inst_infos (pos.inst, market) with
      | none =>
          rw [show fold_ws_positions inst_infos market a (pos :: rest)
                = fold_ws_positions inst_infos market a rest from by
              rw [fold_ws_positions.eq_def]
              simp [hl]]
          exact ih a
      | some info =>
          rw [show fold_ws_positions inst_infos market a (pos :: rest)
                = fold_ws_positions inst_infos market
                    (ws_update_acc_position a pos info) rest from by
              rw [fold_ws_positions.eq_def]
              simp [hl]]
          exact ih (ws_update_acc_position a pos info)

theorem fold_ws_bal_pos_frame (inst_infos : InstInfoMap)
    (a : AccountInfo) (data : List WsAccBalPos) :
    (fold_ws_bal_pos inst_infos a data).client = a.client ∧
    (fold_ws_bal_pos inst_infos a data).inst_mark_price = a.inst_mark_price ∧
    (fold_ws_bal_pos inst_infos a data).total_equity = a.total_equity ∧
    (fold_ws_bal_pos inst_infos a data).account_id = a.account_id := by
  induction data generalizing a with
  | nil => exact ⟨rfl, rfl, rfl, rfl⟩
  | cons bp rest ih =>
      have h1 := fold_ws_positions_frame inst_infos bp.market a bp.positions
      have h2 := ih (fold_ws_positions inst_infos bp.market a bp.positions)
      exact ⟨h2.1.trans h1.1, h2.2.1.trans h1.2.1, h2.2.2.1.trans h1.2.2.1,
        h2.2.2.2.trans h1.2.2.2⟩

theorem fold_ws_positions_weight_frame (inst_infos : InstInfoMap) (market : Market)
    (a : AccountInfo) (ps : List WsAccPosition) (inst : String)
    (h : ∀ pos ∈ ps, pos.inst = inst →
      alistLookup inst_infos (pos.inst, market) = none) :
    alistLookup (fold_ws_positions inst_infos market a ps).acc_weights inst
      = alistLookup a.acc_weights inst := by
  induction ps generalizing a with
  | nil => rfl
  | cons pos rest ih =>
      cases hl : alistLookup inst_infos (pos.inst, market) with
      | none =>
          rw [show fold_ws_positions inst_infos market a (pos :: rest)
                = fold_ws_positions inst_infos market a rest from by
              rw [fold_ws_positions.eq_def]
              simp [hl]]
          exact ih a (fun p hp hi => h p (List.mem_cons_of_mem _ hp) hi)
      | some info =>
          have hne : pos.inst ≠ inst := by
            intro he
            rw [h pos (List.mem_cons_self _ _) he] at hl
            exact Option.noConfusion hl
          rw [show fold_ws_positions inst_infos market a (pos :: rest)
                = fold_ws_positions inst_infos market
                    (ws_update_acc_position a pos info) rest from by
              rw [fold_ws_positions.eq_def]
              simp [hl]]
          rw [ih (ws_update_acc_position a pos info)
            (fun p hp hi => h p (List.mem_cons_of_mem _ hp) hi)]
          exact alistLookup_insert_ne _ _ _ _ hne

theorem fold_ws_bal_pos_weight_frame (inst_infos : InstInfoMap)
    (a : AccountInfo) (data : List WsAccBalPos) (inst : String)
    (h : ∀ bp ∈ data, ∀ pos ∈ bp.positions, pos.inst = inst →
      alistLookup inst_infos (pos.inst, bp.market) = none) :
    alistLookup (fold_ws_bal_pos inst_infos a data).acc_weights inst
      = alistLookup a.acc_weights inst := by
  induction data generalizing a with
  | nil => rfl
  | cons bp rest ih =>
      rw [show fold_ws_bal_pos inst_infos a (bp :: rest)
            = fold_ws_bal_pos inst_infos
                (fold_ws_positions inst_infos bp.market a bp.positions) rest from rfl]
      rw [ih _ (fun b hb => h b (List.mem_cons_of_mem _ hb))]
      exact fold_ws_positions_weight_frame inst_infos bp.market a bp.positions inst
        (h bp (List.mem_cons_self _ _))

/-- C10: for an inbound WS balance/position event routed to a live
account, position entries whose `(instrument, market)` key is missing
from the instrument catalog are dropped: processing the event equals
processing it with those entries filtered out, every non-weight field of
the account is unchanged by the fold, and the weight entry of an
instrument all of whose occurrences are uncatalogued is untouched. -/
theorem C10_uncatalogued_position_dropped (mgr : AccountManager) (task_id : ℕ)
    (data : List WsAccBalPos) (account_id : String) (account : AccountInfo)
    (h1 : alistLookup mgr.task_index task_id = some account_id)
    (h2 : alistLookup mgr.account_infos account_id = some account) :
    process_bal_pos mgr task_id data
      = process_bal_pos mgr task_id
          (data.map (filter_catalogued mgr.instrument_infos)) ∧
    (fold_ws_bal_pos mgr.instrument_infos account data).client = account.client ∧
    (fold_ws_bal_pos mgr.instrument_infos account data).inst_mark_price
      = account.inst_mark_price ∧
    (fold_ws_bal_pos mgr.instrument_infos account data).total_equity
      = account.total_equity ∧
    ∀ inst, (∀ bp ∈ data, ∀ pos ∈ bp.positions, pos.inst = inst →
        alistLookup mgr.instrument_infos (pos.inst, bp.market) = none) →
      alistLookup (fold_ws_bal_pos mgr.instrument_infos account data).acc_weights inst
        = alistLookup account.acc_weights inst := by
  have hfr := fold_ws_bal_pos_frame mgr.instrument_infos account data
  refine ⟨?_, hfr.1, hfr.2.1, hfr.2.2.1, ?_⟩
  · unfold process_bal_pos
    simp only [h1, h2]
    rw [← fold_ws_bal_pos_filter]
  · intro inst h
    exact fold_ws_bal_pos_weight_frame mgr.instrument_infos account data inst h

/-- C10 witness: a single position on an uncatalogued instrument leaves
the routed account's weight map untouched. -/
theorem C10_uncatalogued_position_dropped_witness :
    (alistLookup
      (AccountManager.mk [] [(7, "acct-1")] [("acct-1", acct0)] []).task_index 7
      = some "acct-1") ∧
    alistLookup
      (fold_ws_bal_pos ([] : InstInfoMap) acct0
        [⟨Market.Okx, [⟨"ZZZ", 1, 10⟩]⟩]).acc_weights "ZZZ"
      = alistLookup acct0.acc_weights "ZZZ" := by
  have h := C10_uncatalogued_position_dropped
    (AccountManager.mk [] [(7, "acct-1")] [("acct-1", acct0)] []) 7
    [⟨Market.Okx, [⟨"ZZZ", 1, 10⟩]⟩] "acct-1" acct0
    (by simp [alistLookup])
    (by simp [alistLookup])
  refine ⟨by simp [alistLookup], ?_⟩
  exact h.2.2.2.2 "ZZZ" (by
    intro bp hbp pos hpos hinst
    rfl)


/-! ## Reconciliation order placement (`AccountInfo::process_weight`) -/

inductive OrderSide where
  | BUY
  | SELL
  deriving DecidableEq, Repr

/-- A submitted market order (instrument, rendered size, side). -/
structure OrderRec where
  inst : String
  size : ℚ
  side : OrderSide
  deriving DecidableEq, Repr

/-- Evaluating `calc_okx_order_size` when the contract multiplier is
present. -/
theorem calc_okx_order_size_of_some (price notional : ℚ) (info : InstrumentInfo)
    (ct : ℚ) (hct : info.contract_value = some ct) :
    calc_okx_order_size price notional info
      = Except.ok (normalize_to_string
          (rustClamp (notional / (price * ct))
            (max info.min_lmt_size info.min_mkt_size)
            (min info.max_lmt_size info.max_mkt_size)) info.lot_size) := by
  unfold calc_okx_order_size
  rw [hct]

/-- One iteration of the Binance branch of `AccountInfo::process_weight`
(`acc_base.rs:611-677`): skip the instrument on a missing mark price,
missing instrument metadata, notional below `6.0`, or a sizing error;
otherwise submit a market order, and on successful placement (modelled by
`place_ok`) optimistically fold the diff into the weight map.  Returns
the possibly mutated account and the submitted order, if any. -/
def binance_weight_step (inst_infos : InstInfoMap) (place_ok : String → Bool)
    (a : AccountInfo) (inst : String) (diff : ℚ) : AccountInfo × Option OrderRec :=
  match alistLookup a.inst_mark_price inst with
  | none => (a, none)
  | some mark_price =>
      match alistLookup inst_infos (inst, Market.BinanceUmFutures) with
      | none => (a, none)
      | some binance_info =>
          let side := if diff > 0 then OrderSide.BUY else OrderSide.SELL
          let inst_notional := |diff * a.total_equity|
          if inst_notional < 6 then (a, none)
          else
            match calc_binance_order_size mark_price inst_notional binance_info with
            | Except.error _ => (a, none)
            | Except.ok size =>
                if place_ok inst then
                  ({ a with acc_weights := alistAddEntry a.acc_weights inst diff },
                    some ⟨inst, size, side⟩)
                else (a, some ⟨inst, size, side⟩)

/-- One iteration of the OKX branch of `AccountInfo::process_weight`
(`acc_base.rs:680-738`): identical to the Binance iteration except that
there is no minimum-notional floor and sizing follows the OKX rules. -/
def okx_weight_step (inst_infos : InstInfoMap) (place_ok : String → Bool)
    (a : AccountInfo) (inst : String) (diff : ℚ) : AccountInfo × Option OrderRec :=
  match alistLookup a.inst_mark_price inst with
  | none => (a, none)
  | some mark_price =>
      match alistLookup inst_infos (inst, Market.Okx) with
      | none => (a, none)
      | some okx_info =>
          let side := if diff > 0 then OrderSide.BUY else OrderSide.SELL
          let inst_notional := |diff * a.total_equity|
          match calc_okx_order_size mark_price inst_notional okx_info with
          | Except.error _ => (a, none)
          | Except.ok size =>
              if place_ok inst then
                ({ a with acc_weights := alistAddEntry a.acc_weights inst diff },
                  some ⟨inst, size, side⟩)
              else (a, some ⟨inst, size, side⟩)

/-- The `for (inst, diff) in diffs.iter()` loop of the Binance branch of
`process_weight` (`acc_base.rs:610-678`). -/
def process_weight_binance (inst_infos : InstInfoMap) (place_ok : String → Bool) :
    AccountInfo → AList String ℚ → AccountInfo × List OrderRec
  | a, [] => (a, [])
  | a, (inst, diff) :: rest =>
      let st := binance_weight_step inst_infos place_ok a inst diff
      let res := process_weight_binance inst_infos place_ok st.1 rest
      (res.1, st.2.toList ++ res.2)

/-- The `for (inst, diff) in diffs.iter()` loop of the OKX branch of
`process_weight` (`acc_base.rs:679-739`). -/
def process_weight_okx (inst_infos : InstInfoMap) (place_ok : String → Bool) :
    AccountInfo → AList String ℚ → AccountInfo × List OrderRec
  | a, [] => (a, [])
  | a, (inst, diff) :: rest =>
      let st := okx_weight_step inst_infos place_ok a inst diff
      let res := process_weight_okx inst_infos place_ok st.1 rest
      (res.1, st.2.toList ++ res.2)

/-- `AccountInfo::process_weight` (`acc_base.rs:591-744`): compute the
actionable diffs via `compare_weights`, then dispatch on the venue
client. -/
def process_weight (a : AccountInfo) (targets : TargetWeightTable)
    (inst_infos : InstInfoMap) (place_ok : String → Bool) :
    AccountInfo × List OrderRec :=
  let cw := compare_weights a targets
  match cw.1.client with
  | CexClients.BinanceUm => process_weight_binance inst_infos place_ok cw.1 cw.2.1
  | CexClients.Okx => process_weight_okx inst_infos place_ok cw.1 cw.2.1
  | _ => (cw.1, [])


theorem binance_weight_step_frame (inst_infos : InstInfoMap)
    (place_ok : String → Bool) (a : AccountInfo) (inst : String) (diff : ℚ) :
    (binance_weight_step inst_infos place_ok a inst diff).1.total_equity
        = a.total_equity ∧
    (binance_weight_step inst_infos place_ok a inst diff).1.inst_mark_price
        = a.inst_mark_price := by
  unfold binance_weight_step
  cases hmp : alistLookup a.inst_mark_price inst with
  | none => exact ⟨rfl, rfl⟩
  | some mark_price =>
      cases hinfo : alistLookup inst_infos (inst, Market.BinanceUmFutures) with
      | none => exact ⟨rfl, rfl⟩
      | some binance_info =>
          simp only []
          by_cases h6 : |diff * a.total_equity| < 6
          · rw [if_pos h6]
            exact ⟨rfl, rfl⟩
          · rw [if_neg h6]
            cases hsz : calc_binance_order_size mark_price |diff * a.total_equity|
                binance_info with
            | error e => exact ⟨rfl, rfl⟩
            | ok size =>
                simp only []
                by_cases hpl : place_ok inst = true
                · rw [if_pos hpl]
                  exact ⟨rfl, rfl⟩
                · rw [if_neg hpl]
                  exact ⟨rfl, rfl⟩

theorem okx_weight_step_frame (inst_infos : InstInfoMap)
    (place_ok : String → Bool) (a : AccountInfo) (inst : String) (diff : ℚ) :
    (okx_weight_step inst_infos place_ok a inst diff).1.total_equity
        = a.total_equity ∧
    (okx_weight_step inst_infos place_ok a inst diff).1.inst_mark_price
        = a.inst_mark_price := by
  unfold okx_weight_step
  cases hmp : alistLookup a.inst_mark_price inst with
  | none => exact ⟨rfl, rfl⟩
  | some mark_price =>
      cases hinfo : alistLookup inst_infos (inst, Market.Okx) with
      | none => exact ⟨rfl, rfl⟩
      | some okx_info =>
          simp only []
          cases hsz : calc_okx_order_size mark_price |diff * a.total_equity| okx_info with
          | error e => exact ⟨rfl, rfl⟩
          | ok size =>
              simp only []
              by_cases hpl : place_ok inst = true
              · rw [if_pos hpl]
                exact ⟨rfl, rfl⟩
              · rw [if_neg hpl]
                exact ⟨rfl, rfl⟩

theorem binance_weight_step_order_inst (inst_infos : InstInfoMap)
    (place_ok : String → Bool) (a : AccountInfo) (inst : String) (diff : ℚ)
    (o : OrderRec)
    (ho : o ∈ (binance_weight_step inst_infos place_ok a inst diff).2.toList) :
    o.inst = inst := by
  unfold binance_weight_step at ho
  cases hmp : alistLookup a.inst_mark_price inst with
  | none =>
      rw [hmp] at ho
      exact absurd ho (List.not_mem_nil _)
  | some mark_price =>
      rw [hmp] at ho
      simp only [] at ho
      cases hinfo : alistLookup inst_infos (inst, Market.BinanceUmFutures) with
      | none =>
          rw [hinfo] at ho
          exact absurd ho (List.not_mem_nil _)
      | some binance_info =>
          rw [hinfo] at ho
          simp only [] at ho
          by_cases h6 : |diff * a.total_equity| < 6
          · rw [if_pos h6] at ho
            exact absurd ho (List.not_mem_nil _)
          · rw [if_neg h6] at ho
            cases hsz : calc_binance_order_size mark_price |diff * a.total_equity|
                binance_info with
            | error e =>
                rw [hsz] at ho
                exact absurd ho (List.not_mem_nil _)
            | ok size =>
                rw [hsz] at ho
                simp only [] at ho
                by_cases hpl : place_ok inst = true
                · rw [if_pos hpl] at ho
                  rw [List.mem_singleton.mp ho]
                · rw [if_neg hpl] at ho
                  rw [List.mem_singleton.mp ho]

theorem okx_weight_step_order_inst (inst_infos : InstInfoMap)
    (place_ok : String → Bool) (a : AccountInfo) (inst : String) (diff : ℚ)
    (o : OrderRec)
    (ho : o ∈ (okx_weight_step inst_infos place_ok a inst diff).2.toList) :
    o.inst = inst := by
  unfold okx_weight_step at ho
  cases hmp : alistLookup a.inst_mark_price inst with
  | none =>
      rw [hmp] at ho
      exact absurd ho (List.not_mem_nil _)
  | some mark_price =>
      rw [hmp] at ho
      simp only [] at ho
      cases hinfo : alistLookup inst_infos (inst, Market.Okx) with
      | none =>
          rw [hinfo] at ho
          exact absurd ho (List.not_mem_nil _)
      | some okx_info =>
          rw [hinfo] at ho
          simp only [] at ho
          cases hsz : calc_okx_order_size mark_price |diff * a.total_equity| okx_info with
          | error e =>
              rw [hsz] at ho
              exact absurd ho (List.not_mem_nil _)
          | ok size =>
              rw [hsz] at ho
              simp only [] at ho
              by_cases hpl : place_ok inst = true
              · rw [if_pos hpl] at ho
                rw [List.mem_singleton.mp ho]
              · rw [if_neg hpl] at ho
                rw [List.mem_singleton.mp ho]

theorem binance_weight_step_small (inst_infos : InstInfoMap)
    (place_ok : String → Bool) (a : AccountInfo) (inst : String) (diff : ℚ)
    (hsmall : |diff * a.total_equity| < 6) :
    binance_weight_step inst_infos place_ok a inst diff = (a, none) := by
  unfold binance_weight_step
  cases hmp : alistLookup a.inst_mark_price inst with
  | none => rfl
  | some mark_price =>
      cases hinfo : alistLookup inst_infos (inst, Market.BinanceUmFutures) with
      | none => rfl
      | some binance_info =>
          simp only []
          rw [if_pos hsmall]

theorem okx_weight_step_submits (inst_infos : InstInfoMap)
    (place_ok : String → Bool) (a : AccountInfo) (inst : String) (diff : ℚ)
    (mark_price : ℚ) (hmp : alistLookup a.inst_mark_price inst = some mark_price)
    (info : InstrumentInfo)
    (hinfo : alistLookup inst_infos (inst, Market.Okx) = some info)
    (ct : ℚ) (hct : info.contract_value = some ct) :
    ∃ o : OrderRec, (okx_weight_step inst_infos place_ok a inst diff).2 = some o ∧
      o.inst = inst := by
  unfold okx_weight_step
  simp only [hmp, hinfo, calc_okx_order_size, hct]
  by_cases hpl : place_ok inst = true
  · rw [if_pos hpl]
    exact ⟨_, rfl, rfl⟩
  · rw [if_neg hpl]
    exact ⟨_, rfl, rfl⟩

theorem process_weight_binance_orders_sub (inst_infos : InstInfoMap)
    (place_ok : String → Bool) (a : AccountInfo) (diffs : AList String ℚ)
    (o : OrderRec) (ho : o ∈ (process_weight_binance inst_infos place_ok a diffs).2) :
    o.inst ∈ diffs.map (·.1) := by
  induction diffs generalizing a with
  | nil => exact absurd ho (List.not_mem_nil _)
  | cons hd tl ih =>
      obtain ⟨inst, diff⟩ := hd
      rw [show process_weight_binance inst_infos place_ok a ((inst, diff) :: tl)
            = ((process_weight_binance inst_infos place_ok
                  (binance_weight_step inst_infos place_ok a inst diff).1 tl).1,
                (binance_weight_step inst_infos place_ok a inst diff).2.toList
                  ++ (process_weight_binance inst_infos place_ok
                      (binance_weight_step inst_infos place_ok a inst diff).1 tl).2)
          from rfl] at ho
      simp only [List.mem_append] at ho
      simp only [List.map_cons, List.mem_cons]
      rcases ho with ho | ho
      · exact Or.inl (binance_weight_step_order_inst inst_infos place_ok a inst diff o ho)
      · exact Or.inr (ih _ ho)

/-- C6 helper, Binance side: an actionable diff whose notional is below
`6.0` never produces an order. -/
theorem process_weight_binance_skips_small (inst_infos : InstInfoMap)
    (place_ok : String → Bool) (a : AccountInfo) (diffs : AList String ℚ)
    (inst : String) (d : ℚ) (hmem : (inst, d) ∈ diffs)
    (hnd : (diffs.map (·.1)).Nodup)
    (hsmall : |d * a.total_equity| < 6) :
    inst ∉ (process_weight_binance inst_infos place_ok a diffs).2.map (·.inst) := by
  induction diffs generalizing a with
  | nil => exact absurd hmem (List.not_mem_nil _)
  | cons hd tl ih =>
      obtain ⟨j, dj⟩ := hd
      simp only [List.map_cons, List.nodup_cons] at hnd
      intro hin
      obtain ⟨o, ho, hoi⟩ := List.mem_map.mp hin
      rw [show process_weight_binance inst_infos place_ok a ((j, dj) :: tl)
            = ((process_weight_binance inst_infos place_ok
                  (binance_weight_step inst_infos place_ok a j dj).1 tl).1,
                (binance_weight_step inst_infos place_ok a j dj).2.toList
                  ++ (process_weight_binance inst_infos place_ok
                      (binance_weight_step inst_infos place_ok a j dj).1 tl).2)
          from rfl] at ho
      simp only [List.mem_append] at ho
      rcases List.mem_cons.mp hmem with heq | htl
      · injection heq with hj hd2
        subst hj; subst hd2
        rw [binance_weight_step_small inst_infos place_ok a inst d hsmall] at ho
        rcases ho with ho | ho
        · exact absurd ho (List.not_mem_nil _)
        · have := process_weight_binance_orders_sub inst_infos place_ok a tl o ho
          rw [hoi] at this
          exact hnd.1 this
      · have hjne : j ≠ inst := by
          intro he
          subst he
          exact hnd.1 (List.mem_map.mpr ⟨(j, d), htl, rfl⟩)
        rcases ho with ho | ho
        · have := binance_weight_step_order_inst inst_infos place_ok a j dj o ho
          rw [hoi] at this
          exact hjne this.symm
        · refine ih (binance_weight_step inst_infos place_ok a j dj).1 htl hnd.2
            ?_ (List.mem_map.mpr ⟨o, ho, hoi⟩)
          rw [(binance_weight_step_frame inst_infos place_ok a j dj).1]
          exact hsmall

/-- C6 helper, OKX side: an actionable diff with mark price and
catalogued metadata (multiplier present) always produces an order — there
is no minimum-notional floor. -/
theorem process_weight_okx_submits (inst_infos : InstInfoMap)
    (place_ok : String → Bool) (a : AccountInfo) (diffs : AList String ℚ)
    (inst : String) (d : ℚ) (hmem : (inst, d) ∈ diffs)
    (mark_price : ℚ) (hmp : alistLookup a.inst_mark_price inst = some mark_price)
    (info : InstrumentInfo)
    (hinfo : alistLookup inst_infos (inst, Market.Okx) = some info)
    (ct : ℚ) (hct : info.contract_value = some ct) :
    inst ∈ (process_weight_okx inst_infos place_ok a diffs).2.map (·.inst) := by
  induction diffs generalizing a with
  | nil => exact absurd hmem (List.not_mem_nil _)
  | cons hd tl ih =>
      obtain ⟨j, dj⟩ := hd
      rw [show process_weight_okx inst_infos place_ok a ((j, dj) :: tl)
            = ((process_weight_okx inst_infos place_ok
                  (okx_weight_step inst_infos place_ok a j dj).1 tl).1,
                (okx_weight_step inst_infos place_ok a j dj).2.toList
                  ++ (process_weight_okx inst_infos place_ok
                      (okx_weight_step inst_infos place_ok a j dj).1 tl).2)
          from rfl]
      simp only [List.map_append, List.mem_append]
      rcases List.mem_cons.mp hmem with heq | htl
      · injection heq with hj hd2
        subst hj; subst hd2
        obtain ⟨o, ho, hoi⟩ := okx_weight_step_submits inst_infos place_ok a inst d
          mark_price hmp info hinfo ct hct
        refine Or.inl ?_
        rw [ho]
        exact List.mem_map.mpr ⟨o, List.mem_singleton.mpr rfl, hoi⟩
      · refine Or.inr ?_
        refine ih (okx_weight_step inst_infos place_ok a j dj).1 htl ?_
        rw [(okx_weight_step_frame inst_infos place_ok a j dj).2]
        exact hmp

/-- C6: during reconciliation, a Binance-style account skips every
actionable instrument whose order notional `|diff| * total_equity` is
below `6.0` (no order is submitted for it), while the OKX-style branch
has no such floor: with the instrument's mark price and catalogued
metadata present, the same notional proceeds to sizing and an order is
submitted. -/
theorem C6_min_notional_asymmetry (inst_infos : InstInfoMap)
    (place_ok : String → Bool) (a : AccountInfo) (diffs : AList String ℚ)
    (inst : String) (d : ℚ) (hmem : (inst, d) ∈ diffs)
    (hnd : (diffs.map (·.1)).Nodup)
    (hsmall : |d * a.total_equity| < 6) :
    inst ∉ (process_weight_binance inst_infos place_ok a diffs).2.map (·.inst) ∧
    (∀ mark_price, alistLookup a.inst_mark_price inst = some mark_price →
      ∀ info, alistLookup inst_infos (inst, Market.Okx) = some info →
        ∀ ct, info.contract_value = some ct →
          inst ∈ (process_weight_okx inst_infos place_ok a diffs).2.map (·.inst)) :=
  ⟨process_weight_binance_skips_small inst_infos place_ok a diffs inst d hmem hnd hsmall,
    fun mark_price hmp info hinfo ct hct =>
      process_weight_okx_submits inst_infos place_ok a diffs inst d hmem
        mark_price hmp info hinfo ct hct⟩

def infoBoth : InstInfoMap :=
  [(("A", Market.BinanceUmFutures), info1), (("A", Market.Okx), info1)]

def acctMark : AccountInfo :=
  { acct0 with inst_mark_price := [("A", 100)], total_equity := 100 }

/-- C6 witness: a diff of `0.02` on 100 quote units of equity (notional
`2.0 < 6.0`) is skipped on Binance but ordered on OKX. -/
theorem C6_min_notional_asymmetry_witness :
    (("A", (1/50 : ℚ)) ∈ ([("A", (1/50 : ℚ))] : AList String ℚ)) ∧
    ((([("A", (1/50 : ℚ))] : AList String ℚ).map (·.1)).Nodup) ∧
    |(1/50 : ℚ) * acctMark.total_equity| < 6 ∧
    "A" ∉ (process_weight_binance infoBoth (fun _ => true) acctMark
      [("A", 1/50)]).2.map (·.inst) ∧
    "A" ∈ (process_weight_okx infoBoth (fun _ => true) acctMark
      [("A", 1/50)]).2.map (·.inst) := by
  have habs : |(1/50 : ℚ) * acctMark.total_equity| < 6 := by
    rw [show acctMark.total_equity = 100 from rfl]
    rw [abs_of_nonneg (by norm_num)]
    norm_num
  have h := C6_min_notional_asymmetry infoBoth (fun _ => true) acctMark
    [("A", 1/50)] "A" (1/50) (List.mem_singleton.mpr rfl) (by simp) habs
  refine ⟨List.mem_singleton.mpr rfl, by simp, habs, h.1, ?_⟩
  refine h.2 100 ?_ info1 ?_ 1 rfl
  · simp [acctMark, alistLookup]
  · simp [infoBoth, alistLookup]

/-! ## Connectivity handshake and hot reload (trace model,
`acc_base.rs:183-491`)

The asynchronous command/acknowledgement transport and the venue client's
payload builders are external collaborators; their outcomes are modelled
by a `WsEnv` oracle.  Each handshake/teardown function returns the list
of observable events it emitted (in order) together with its
`InfraResult` success. -/

inductive WsChannel where
  | AccountOrders
  | AccountBalAndPos
  | Other
  deriving DecidableEq, Repr

inductive WsStep where
  | connect
  | login
  | subscribe
  deriving DecidableEq, Repr

/-- Observable events: handshake payload sends, teardown commands, and
the registry bookkeeping of `reload_accounts`. -/
inductive TraceEv where
  | sent (account_id : String) (channel : WsChannel) (step : WsStep)
  | shutdown (account_id : String) (channel : WsChannel)
  | addTaskIdx (task_id : ℕ) (account_id : String)
  | addAccount (account_id : String)
  | removeTaskIdx (task_id : ℕ)
  | removeAccount (account_id : String)
  deriving DecidableEq, Repr

/-- Outcomes of the external transport and payload builders:
`find_handle` models `find_ws_handle`; `connect_msg_ok` / `sub_msg_ok`
model `get_private_connect_msg` / `get_private_sub_msg`; `login_msg_ok`
models `ws_login_msg`; the `*_ack_ok` fields model
`send_command(..).await?` together with its awaited acknowledgement;
`shutdown_ok` models the fire-and-forget shutdown send. -/
structure WsEnv where
  find_handle : WsChannel → ℕ → Bool
  connect_msg_ok : String → WsChannel → Bool
  connect_ack_ok : String → WsChannel → Bool
  login_msg_ok : String → Bool
  login_ack_ok : String → WsChannel → Bool
  sub_msg_ok : String → WsChannel → Bool
  sub_ack_ok : String → WsChannel → Bool
  shutdown_ok : String → WsChannel → Bool

/-- The channel → task-id resolution shared by both handshake handlers
(`acc_base.rs:188-197` and `234-243`); `none` is the unsupported-channel
error arm. -/
def channel_task_id (acc : AccountInfo) : WsChannel → Option ℕ
  | WsChannel.AccountOrders => some acc.account_orders_task_id
  | WsChannel.AccountBalAndPos => some acc.account_bal_pos_task_id
  | WsChannel.Other => none

/-- `AccountManager::handle_binance_account_event` (`acc_base.rs:183-227`):
resolve the task id, treat a missing handle as a logged no-op success,
build the connect payload, send it and await the acknowledgement. -/
def handle_binance_account_event (env : WsEnv) (acc : AccountInfo)
    (channel : WsChannel) : List TraceEv × Bool :=
  match channel_task_id acc channel with
  | none => ([], false)
  | some task_id =>
      if env.find_handle channel task_id = false then ([], true)
      else if env.connect_msg_ok acc.account_id channel = false then ([], false)
      else if env.connect_ack_ok acc.account_id channel = false then
        ([TraceEv.sent acc.account_id channel WsStep.connect], false)
      else ([TraceEv.sent acc.account_id channel WsStep.connect], true)

/-- `AccountManager::handle_okx_account_event` (`acc_base.rs:229-306`):
connect, then login (payload construction fails for a non-OKX client),
then — after a fixed pacing pause — subscribe; each step sends a payload
and awaits its acknowledgement, and any failure aborts the remaining
steps of this channel's sequence and propagates. -/
def handle_okx_account_event (env : WsEnv) (acc : AccountInfo)
    (channel : WsChannel) : List TraceEv × Bool :=
  match channel_task_id acc channel with
  | none => ([], false)
  | some task_id =>
      if env.find_handle channel task_id = false then ([], true)
      else if env.connect_msg_ok acc.account_id channel = false then ([], false)
      else if env.connect_ack_ok acc.account_id channel = false then
        ([TraceEv.sent acc.account_id channel WsStep.connect], false)
      else
        match acc.client with
        | CexClients.Okx =>
            if env.login_msg_ok acc.account_id = false then
              ([TraceEv.sent acc.account_id channel WsStep.connect], false)
            else if env.login_ack_ok acc.account_id channel = false then
              ([TraceEv.sent acc.account_id channel WsStep.connect,
                TraceEv.sent acc.account_id channel WsStep.login], false)
            else if env.sub_msg_ok acc.account_id channel = false then
              ([TraceEv.sent acc.account_id channel WsStep.connect,
                TraceEv.sent acc.account_id channel WsStep.login], false)
            else if env.sub_ack_ok acc.account_id channel = false then
              ([TraceEv.sent acc.account_id channel WsStep.connect,
                TraceEv.sent acc.account_id channel WsStep.login,
                TraceEv.sent acc.account_id channel WsStep.subscribe], false)
            else
              ([TraceEv.sent acc.account_id channel WsStep.connect,
                TraceEv.sent acc.account_id channel WsStep.login,
                TraceEv.sent acc.account_id channel WsStep.subscribe], true)
        | _ => ([TraceEv.sent acc.account_id channel WsStep.connect], false)

/-- `AccountManager::ws_connect_account` (`acc_base.rs:447-467`):
sequential, fail-fast per account — the balance/position channel is
connected only if the order channel's handshake fully succeeded. -/
def ws_connect_account (env : WsEnv) (acc : AccountInfo) : List TraceEv × Bool :=
  match acc.client with
  | CexClients.BinanceUm =>
      let r1 := handle_binance_account_event env acc WsChannel.AccountOrders
      if r1.2 = false then (r1.1, false)
      else
        let r2 := handle_binance_account_event env acc WsChannel.AccountBalAndPos
        (r1.1 ++ r2.1, r2.2)
  | CexClients.Okx =>
      let r1 := handle_okx_account_event env acc WsChannel.AccountOrders
      if r1.2 = false then (r1.1, false)
      else
        let r2 := handle_okx_account_event env acc WsChannel.AccountBalAndPos
        (r1.1 ++ r2.1, r2.2)
  | _ => ([], true)

/-- One channel of `AccountManager::ws_disconnect_account`
(`acc_base.rs:427-442`): a missing handle is logged and skipped; an
existing handle receives a fire-and-forget shutdown command whose send
may still fail and propagate. -/
def ws_disconnect_channel (env : WsEnv) (acc : AccountInfo) (channel : WsChannel)
    (task_id : ℕ) : List TraceEv × Bool :=
  if env.find_handle channel task_id then
    ([TraceEv.shutdown acc.account_id channel], env.shutdown_ok acc.account_id channel)
  else ([], true)

/-- `AccountManager::ws_disconnect_account` (`acc_base.rs:419-445`). -/
def ws_disconnect_account (env : WsEnv) (acc : AccountInfo) : List TraceEv × Bool :=
  let r1 := ws_disconnect_channel env acc WsChannel.AccountOrders
    acc.account_orders_task_id
  if r1.2 = false then (r1.1, false)
  else
    let r2 := ws_disconnect_channel env acc WsChannel.AccountBalAndPos
      acc.account_bal_pos_task_id
    (r1.1 ++ r2.1, r2.2)

/-- The registry state mutated by `reload_accounts`. -/
structure ReloadState where
  task_index : AList ℕ String
  account_infos : AList String AccountInfo
  deriving DecidableEq, Repr

/-- `AccountManager::add_account` (`acc_base.rs:477-490`): two TaskIndex
inserts, then the account-map insert. -/
def add_account (st : ReloadState) (acc : AccountInfo) : ReloadState × List TraceEv :=
  ({ task_index :=
        alistInsert (alistInsert st.task_index acc.account_orders_task_id acc.account_id)
          acc.account_bal_pos_task_id acc.account_id,
     account_infos := alistInsert st.account_infos acc.account_id acc },
   [TraceEv.addTaskIdx acc.account_orders_task_id acc.account_id,
    TraceEv.addTaskIdx acc.account_bal_pos_task_id acc.account_id,
    TraceEv.addAccount acc.account_id])

/-- The added-ids loop of `reload_accounts` (`acc_base.rs:359-367`):
register the new account, then connect both feeds; a connect failure
propagates out of the loop via `?`. -/
def reload_added (env : WsEnv) (old_ids : List String) :
    ReloadState → List AccountInfo → ReloadState × List TraceEv × Bool
  | st, [] => (st, [], true)
  | st, acc :: rest =>
      if acc.account_id ∈ old_ids then reload_added env old_ids st rest
      else
        let ad := add_account st acc
        let c := ws_connect_account env acc
        if c.2 = false then (ad.1, ad.2 ++ c.1, false)
        else
          let r := reload_added env old_ids ad.1 rest
          (r.1, ad.2 ++ c.1 ++ r.2.1, r.2.2)

/-- The body of the removed-ids loop of `reload_accounts`
(`acc_base.rs:369-377`): `account_infos.remove(acc_id)` first, then the
two `task_index.remove` calls, then the feeds' teardown. -/
def remove_account_block (env : WsEnv) (st : ReloadState) (old_acc : AccountInfo) :
    ReloadState × List TraceEv × Bool :=
  let st1 : ReloadState :=
    { st with account_infos := alistRemove st.account_infos old_acc.account_id }
  let st2 : ReloadState :=
    { st1 with
        task_index :=
          alistRemove (alistRemove st1.task_index old_acc.account_orders_task_id)
            old_acc.account_bal_pos_task_id }
  let d := ws_disconnect_account env old_acc
  (st2,
   TraceEv.removeAccount old_acc.account_id
     :: TraceEv.removeTaskIdx old_acc.account_orders_task_id
     :: TraceEv.removeTaskIdx old_acc.account_bal_pos_task_id
     :: d.1,
   d.2)

/-- The removed-ids loop of `reload_accounts` (`acc_base.rs:369-377`),
iterating the pre-reload account entries; a teardown failure propagates
via `?`. -/
def reload_removed (env : WsEnv) (new_ids : List String) :
    ReloadState → List (String × AccountInfo) → ReloadState × List TraceEv × Bool
  | st, [] => (st, [], true)
  | st, (acc_id, old_acc) :: rest =>
      if acc_id ∈ new_ids then reload_removed env new_ids st rest
      else
        let b := remove_account_block env st old_acc
        if b.2.2 = false then (b.1, b.2.1, false)
        else
          let r := reload_removed env new_ids b.1 rest
          (r.1, b.2.1 ++ r.2.1, r.2.2)

/-- `AccountInfo::config_changed` (`acc_base.rs:816-820`): only the
account id and the two feed task ids are compared. -/
def config_changed (self other : AccountInfo) : Bool :=
  decide (self.account_id ≠ other.account_id)
    || decide (self.account_orders_task_id ≠ other.account_orders_task_id)
    || decide (self.account_bal_pos_task_id ≠ other.account_bal_pos_task_id)

/-- The body of the retained-ids loop of `reload_accounts`
(`acc_base.rs:399-413`): replace the account, rewire the TaskIndex,
disconnect the old feeds, connect the new ones. -/
def update_account_block (env : WsEnv) (st : ReloadState)
    (new_acc old_acc : AccountInfo) : ReloadState × List TraceEv × Bool :=
  let st1 : ReloadState :=
    { st with account_infos := alistInsert st.account_infos new_acc.account_id new_acc }
  let st2 : ReloadState :=
    { st1 with
        task_index :=
          alistInsert
            (alistInsert
              (alistRemove (alistRemove st1.task_index old_acc.account_orders_task_id)
                old_acc.account_bal_pos_task_id)
              new_acc.account_orders_task_id new_acc.account_id)
            new_acc.account_bal_pos_task_id new_acc.account_id }
  let evs :=
    [TraceEv.addAccount new_acc.account_id,
     TraceEv.removeTaskIdx old_acc.account_orders_task_id,
     TraceEv.removeTaskIdx old_acc.account_bal_pos_task_id,
     TraceEv.addTaskIdx new_acc.account_orders_task_id new_acc.account_id,
     TraceEv.addTaskIdx new_acc.account_bal_pos_task_id new_acc.account_id]
  let d := ws_disconnect_account env old_acc
  if d.2 = false then (st2, evs ++ d.1, false)
  else
    let c := ws_connect_account env new_acc
    (st2, evs ++ d.1 ++ c.1, c.2)

/-- The retained-ids loop of `reload_accounts` (`acc_base.rs:379-414`). -/
def reload_retained (env : WsEnv) (old_ids : List String) :
    ReloadState → List AccountInfo → ReloadState × List TraceEv × Bool
  | st, [] => (st, [], true)
  | st, new_acc :: rest =>
      if new_acc.account_id ∈ old_ids then
        match alistLookup st.account_infos new_acc.account_id with
        | none => reload_retained env old_ids st rest
        | some old_acc =>
            if config_changed new_acc old_acc then
              let b := update_account_block env st new_acc old_acc
              if b.2.2 = false then (b.1, b.2.1, false)
              else
                let r := reload_retained env old_ids b.1 rest
                (r.1, b.2.1 ++ r.2.1, r.2.2)
            else reload_retained env old_ids st rest
      else reload_retained env old_ids st rest

/-- `AccountManager::reload_accounts` (`acc_base.rs:345-417`), with the
freshly parsed configuration passed in as the already-constructed new
account list (config loading/parsing failures abort before any effect).
Every connect/disconnect failure propagates via `?`, aborting the rest of
the reload cycle. -/
def reload_accounts (env : WsEnv) (st : ReloadState)
    (new_accounts : List AccountInfo) : ReloadState × List TraceEv × Bool :=
  let old_ids := alistKeys st.account_infos
  let new_ids := new_accounts.map (·.account_id)
  let ra := reload_added env old_ids st new_accounts
  if ra.2.2 = false then ra
  else
    let rr := reload_removed env new_ids ra.1 st.account_infos
    if rr.2.2 = false then (rr.1, ra.2.1 ++ rr.2.1, false)
    else
      let rt := reload_retained env old_ids rr.1 new_accounts
      (rt.1, ra.2.1 ++ rr.2.1 ++ rt.2.1, rt.2.2)

/-! ## Connectivity fixtures -/

def acctOkx : AccountInfo :=
  { account_id := "okx-1"
    client := CexClients.Okx
    acc_weights := []
    inst_mark_price := []
    total_equity := 0
    account_orders_task_id := 11
    account_bal_pos_task_id := 12 }

def acctA : AccountInfo :=
  { account_id := "a"
    client := CexClients.BinanceUm
    acc_weights := []
    inst_mark_price := []
    total_equity := 0
    account_orders_task_id := 1
    account_bal_pos_task_id := 2 }

def acctB : AccountInfo :=
  { acctA with
    account_id := "b"
    account_orders_task_id := 3
    account_bal_pos_task_id := 4 }

def envAllOk : WsEnv :=
  { find_handle := fun _ _ => true
    connect_msg_ok := fun _ _ => true
    connect_ack_ok := fun _ _ => true
    login_msg_ok := fun _ => true
    login_ack_ok := fun _ _ => true
    sub_msg_ok := fun _ _ => true
    sub_ack_ok := fun _ _ => true
    shutdown_ok := fun _ _ => true }

def envLoginFail : WsEnv :=
  { envAllOk with login_ack_ok := fun _ _ => false }

def envFailA : WsEnv :=
  { envAllOk with connect_ack_ok := fun aid _ => decide (aid ≠ "a") }

def st0 : ReloadState := { task_index := [], account_infos := [] }

def stRem : ReloadState :=
  { task_index := [(1, "a"), (2, "a")], account_infos := [("a", acctA)] }

/-! ## Claim C8 -/

/-- C8: in the OKX handshake (connect → login → subscribe), a failed
login step — failed login-payload construction or failed login
acknowledgement — aborts the remaining steps of that channel: the
subscribe payload is never sent, the error propagates to the caller, and
there is no internal retry (the full trace is exactly one connect send,
possibly followed by exactly one login send). -/
theorem C8_failed_login_aborts (env : WsEnv) (acc : AccountInfo) (channel : WsChannel)
    (hcli : acc.client = CexClients.Okx)
    (task_id : ℕ) (htid : channel_task_id acc channel = some task_id)
    (hfind : env.find_handle channel task_id = true)
    (hcm : env.connect_msg_ok acc.account_id channel = true)
    (hca : env.connect_ack_ok acc.account_id channel = true)
    (hlf : env.login_msg_ok acc.account_id = false ∨
      env.login_ack_ok acc.account_id channel = false) :
    (handle_okx_account_event env acc channel
        = ([TraceEv.sent acc.account_id channel WsStep.connect], false) ∨
      handle_okx_account_event env acc channel
        = ([TraceEv.sent acc.account_id channel WsStep.connect,
            TraceEv.sent acc.account_id channel WsStep.login], false)) ∧
    TraceEv.sent acc.account_id channel WsStep.subscribe
      ∉ (handle_okx_account_event env acc channel).1 ∧
    (handle_okx_account_event env acc channel).2 = false := by
  have hmain : handle_okx_account_event env acc channel
      = ([TraceEv.sent acc.account_id channel WsStep.connect], false) ∨
      handle_okx_account_event env acc channel
        = ([TraceEv.sent acc.account_id channel WsStep.connect,
            TraceEv.sent acc.account_id channel WsStep.login], false) := by
    unfold handle_okx_account_event
    rw [htid]
    rcases hlf with h | h
    · left
      simp [hfind, hcm, hca, hcli, h]
    · by_cases hm : env.login_msg_ok acc.account_id = false
      · left
        simp [hfind, hcm, hca, hcli, hm]
      · right
        rw [Bool.not_eq_false] at hm
        simp [hfind, hcm, hca, hcli, hm, h]
  refine ⟨hmain, ?_, ?_⟩
  · rcases hmain with h | h <;> rw [h] <;> simp
  · rcases hmain with h | h <;> rw [h]

/-- C8 witness: with a failing login acknowledgement, the OKX order
channel never receives the subscribe payload and the handler errors. -/
theorem C8_failed_login_aborts_witness :
    acctOkx.client = CexClients.Okx ∧
    channel_task_id acctOkx WsChannel.AccountOrders = some 11 ∧
    envLoginFail.login_ack_ok acctOkx.account_id WsChannel.AccountOrders = false ∧
    TraceEv.sent acctOkx.account_id WsChannel.AccountOrders WsStep.subscribe
      ∉ (handle_okx_account_event envLoginFail acctOkx WsChannel.AccountOrders).1 ∧
    (handle_okx_account_event envLoginFail acctOkx WsChannel.AccountOrders).2 = false := by
  have h := C8_failed_login_aborts envLoginFail acctOkx WsChannel.AccountOrders rfl
    11 rfl rfl rfl rfl (Or.inr rfl)
  exact ⟨rfl, rfl, rfl, h.2.1, h.2.2⟩

/-! ## Claim C3 -/

/-- Every event emitted by `ws_disconnect_account` is a shutdown command
for one of the account's channels. -/
theorem ws_disconnect_events (env : WsEnv) (acc : AccountInfo) :
    ∀ e ∈ (ws_disconnect_account env acc).1,
      ∃ ch, e = TraceEv.shutdown acc.account_id ch := by
  intro e he
  unfold ws_disconnect_account ws_disconnect_channel at he
  by_cases h1 : env.find_handle WsChannel.AccountOrders acc.account_orders_task_id = true
  · by_cases hs : env.shutdown_ok acc.account_id WsChannel.AccountOrders = true
    · by_cases h2 : env.find_handle WsChannel.AccountBalAndPos
          acc.account_bal_pos_task_id = true
      · simp [h1, hs, h2] at he
        rcases he with he | he
        · exact ⟨WsChannel.AccountOrders, he⟩
        · exact ⟨WsChannel.AccountBalAndPos, he⟩
      · simp [h1, hs, h2] at he
        exact ⟨WsChannel.AccountOrders, he⟩
    · rw [Bool.not_eq_true] at hs
      simp [h1, hs] at he
      exact ⟨WsChannel.AccountOrders, he⟩
  · rw [Bool.not_eq_true] at h1
    by_cases h2 : env.find_handle WsChannel.AccountBalAndPos
        acc.account_bal_pos_task_id = true
    · simp [h1, h2] at he
      exact ⟨WsChannel.AccountBalAndPos, he⟩
    · rw [Bool.not_eq_true] at h2
      simp [h1, h2] at he

/-- C3 counterexample: removing account `"a"` (task ids 1 and 2) from a
roster emits `removeAccount` *before* the two `removeTaskIdx` events —
the claimed order (TaskIndex entries removed before the AccountState
record) does not happen in the trace. -/
theorem C3_counterexample :
    (reload_accounts envAllOk stRem []).2.1
      = [TraceEv.removeAccount "a", TraceEv.removeTaskIdx 1, TraceEv.removeTaskIdx 2,
         TraceEv.shutdown "a" WsChannel.AccountOrders,
         TraceEv.shutdown "a" WsChannel.AccountBalAndPos] ∧
    (reload_accounts envAllOk stRem []).2.1.indexOf (TraceEv.removeAccount "a")
      < (reload_accounts envAllOk stRem []).2.1.indexOf (TraceEv.removeTaskIdx 1) ∧
    ¬ ((reload_accounts envAllOk stRem []).2.1.indexOf (TraceEv.removeTaskIdx 1)
        < (reload_accounts envAllOk stRem []).2.1.indexOf (TraceEv.removeAccount "a")) := by
  refine ⟨?_, ?_, ?_⟩ <;> decide

/-- C3 (amended): when an account id disappears from configuration
during reload, the AccountState record is removed *first*, then its two
TaskIndex entries, and both removals happen before any teardown
(shutdown) command for that account's feeds is issued — every event
following the three removals in the removal block is a shutdown command
for that account. -/
theorem C3_removal_order (env : WsEnv) (st : ReloadState) (old_acc : AccountInfo) :
    ∃ tail,
      (remove_account_block env st old_acc).2.1
        = TraceEv.removeAccount old_acc.account_id
            :: TraceEv.removeTaskIdx old_acc.account_orders_task_id
            :: TraceEv.removeTaskIdx old_acc.account_bal_pos_task_id :: tail ∧
      ∀ e ∈ tail, ∃ ch, e = TraceEv.shutdown old_acc.account_id ch :=
  ⟨(ws_disconnect_account env old_acc).1, rfl, ws_disconnect_events env old_acc⟩

/-! ## Claim C2 -/

/-- C2 counterexample: with two new accounts `"a"` and `"b"` and a
connect acknowledgement that fails for `"a"`, the reload cycle aborts:
`"b"` is never registered and no handshake payload is ever sent for it —
sibling accounts do *not* continue independently. -/
theorem C2_counterexample :
    (reload_accounts envFailA st0 [acctA, acctB]).2.1
      = [TraceEv.addTaskIdx 1 "a", TraceEv.addTaskIdx 2 "a", TraceEv.addAccount "a",
         TraceEv.sent "a" WsChannel.AccountOrders WsStep.connect] ∧
    (reload_accounts envFailA st0 [acctA, acctB]).2.2 = false ∧
    TraceEv.addAccount "b" ∉ (reload_accounts envFailA st0 [acctA, acctB]).2.1 ∧
    TraceEv.sent "b" WsChannel.AccountOrders WsStep.connect
      ∉ (reload_accounts envFailA st0 [acctA, acctB]).2.1 ∧
    alistLookup (reload_accounts envFailA st0 [acctA, acctB]).1.account_infos "b"
      = none := by
  refine ⟨?_, ?_, ?_, ?_, ?_⟩ <;> decide

/-- C2 (amended): a connectivity error aborts the remaining steps of that
one handshake sequence, and within `ws_connect_account` the second
channel is attempted only if the first channel's handshake fully
succeeds; but because `reload_accounts` propagates the error with `?`,
a failed connect for one added account also aborts the rest of the
reload cycle: the remaining sibling accounts are not processed, and the
error surfaces to the scheduler (which logs it). -/
theorem C2_connect_error_containment (env : WsEnv) (st : ReloadState)
    (acc : AccountInfo) (rest : List AccountInfo) (old_ids : List String) :
    ((acc.client = CexClients.BinanceUm →
        (handle_binance_account_event env acc WsChannel.AccountOrders).2 = false →
        ws_connect_account env acc
          = ((handle_binance_account_event env acc WsChannel.AccountOrders).1, false)) ∧
      (acc.client = CexClients.Okx →
        (handle_okx_account_event env acc WsChannel.AccountOrders).2 = false →
        ws_connect_account env acc
          = ((handle_okx_account_event env acc WsChannel.AccountOrders).1, false))) ∧
    (acc.account_id ∉ old_ids →
      (ws_connect_account env acc).2 = false →
      reload_added env old_ids st (acc :: rest)
        = ((add_account st acc).1,
            (add_account st acc).2 ++ (ws_connect_account env acc).1, false)) ∧
    (∀ new_accounts : List AccountInfo,
      (reload_added env (alistKeys st.account_infos) st new_accounts).2.2 = false →
      reload_accounts env st new_accounts
        = reload_added env (alistKeys st.account_infos) st new_accounts) := by
  refine ⟨⟨?_, ?_⟩, ?_, ?_⟩
  · intro hcli hfail
    unfold ws_connect_account
    rw [hcli]
    simp only []
    rw [if_pos hfail]
  · intro hcli hfail
    unfold ws_connect_account
    rw [hcli]
    simp only []
    rw [if_pos hfail]
  · intro hnot hfail
    rw [show reload_added env old_ids st (acc :: rest)
          = if acc.account_id ∈ old_ids then reload_added env old_ids st rest
            else
              if (ws_connect_account env acc).2 = false then
                ((add_account st acc).1,
                  (add_account st acc).2 ++ (ws_connect_account env acc).1, false)
              else
                ((reload_added env old_ids (add_account st acc).1 rest).1,
                  (add_account st acc).2 ++ (ws_connect_account env acc).1
                    ++ (reload_added env old_ids (add_account st acc).1 rest).2.1,
                  (reload_added env old_ids (add_account st acc).1 rest).2.2)
          from rfl]
    rw [if_neg hnot, if_pos hfail]
  · intro new_accounts hfail
    unfold reload_accounts
    simp only []
    rw [if_pos hfail]

/-- C2 witness: the abort behaviour at the concrete failing roster. -/
theorem C2_connect_error_containment_witness :
    acctA.account_id ∉ ([] : List String) ∧
    (ws_connect_account envFailA acctA).2 = false ∧
    reload_added envFailA [] st0 [acctA, acctB]
      = ((add_account st0 acctA).1,
          (add_account st0 acctA).2 ++ (ws_connect_account envFailA acctA).1, false) := by
  have h := C2_connect_error_containment envFailA st0 acctA [acctB] []
  exact ⟨by decide, by decide, h.2.1 (by decide) (by decide)⟩

end Extrema
